import Mathlib

/-!
# did-uri: parse, normalize and format of DID URIs

A shallow embedding of `src/index.js`.

* A JavaScript string is the list of its UTF-16 code units (`Str`); `uri[i]`
  is one unit or `undefined` (`Option Nat`).
* The cursor `i` of `parse` is represented by the unread suffix `uri.slice(i)`:
  `peek(d)` is the `d`-th unit of the suffix, `next()` drops its head.
* Thrown errors are modelled by their class (`TypeError`, `SyntaxError`); the
  message text is not modelled.
-/

namespace DidUri

/-! ## Strings -/

/-- A JavaScript string, as the list of its UTF-16 code units (numbers below
`0x10000`). -/
abbrev Str := List Nat

/-- The code unit of a (basic multilingual plane) character literal. -/
def code (ch : Char) : Nat := ch.toNat

/-- A string literal as a JavaScript string. -/
def lit (s : String) : Str := s.toList.map code

/-- `array(size, map)`: `[map(0), ..., map(size - 1)]`. -/
def array (size : Nat) (map : Nat → Nat) : List Nat := (List.range size).map map

def DIGIT : List Nat := array 10 (fun i => 0x30 + i)

def ALPHA : List Nat := array 26 (fun i => 0x61 + i) ++ array 26 (fun i => 0x41 + i)

/-- `inRange(value, start, end)`. -/
def inRange (value start stop : Nat) : Bool := decide (value ≥ start) && decide (value ≤ stop)

/-- `toLower(ch)` = `String(ch).toLowerCase()` for `ch` one code unit or
`undefined`. `String(undefined)` is the text `undefined`. The only use of the
result is the comparison of four concatenated results with `did:`; the units
whose lower-casing is the single unit `d`, `i` or `:` are exactly `D`, `d`,
`I`, `i`, `:`, so lower-casing is modelled on `A`-`Z` and other units are
kept. -/
def toLower : Option Nat → Str
  | none => lit "undefined"
  | some c => if 0x41 ≤ c ∧ c ≤ 0x5a then [c + 0x20] else [c]

/-! ## Character classifiers -/

def isValidIdentifierCharacter : Option Nat → Bool
  | none => false
  | some ch =>
    0x2d == ch || 0x2e == ch || 0x3a == ch ||
    inRange ch 0x30 0x39 || inRange ch 0x61 0x7a || inRange ch 0x41 0x5a

def isValidMethodCharacter : Option Nat → Bool
  | none => false
  | some ch => inRange ch 0x30 0x39 || inRange ch 0x61 0x7a

def isValidPathCharacter : Option Nat → Bool
  | none => false
  | some ch =>
    let sub := lit "!$&'()*+,;="
    (ALPHA ++ DIGIT ++ sub ++ [code ':'] ++ [code '@']).contains ch

def isValidQueryCharacter : Option Nat → Bool
  | none => false
  | some ch =>
    let gen := lit ":/?#[]@"
    let sub := lit "!$&'()*+,;="
    let pct := lit "%-_~"
    (ALPHA ++ DIGIT ++ gen ++ sub ++ pct ++ [code '.']).contains ch

def isValidFragmentCharacter (ch : Option Nat) : Bool := isValidQueryCharacter ch

/-! ## Values, records and errors -/

/-- The record built by `parse` (`ctx`). A field is `none` when it is `null`.
For a record handed to `format` by a caller, `none` stands for any value that
is not a string (`format` tests `typeof` of each field it reads). -/
structure DIDRecord where
  reference : Option Str
  did : Option Str
  method : Option Str
  identifier : Option Str
  path : Option Str
  fragment : Option Str
  query : Option Str
  deriving DecidableEq, Repr

/-- A JavaScript value as the three entry points observe it. Numbers and
bigints are abstracted to their truthiness, arrays and functions to their kind,
objects to the fields `format` reads. -/
inductive Value where
  | undefined
  | null
  | boolean (b : Bool)
  | number (truthy : Bool)
  | bigint (truthy : Bool)
  | symbol
  | function
  | array
  | string (s : Str)
  | object (o : DIDRecord)
  deriving DecidableEq, Repr

/-- The class of a thrown error. `loopBound` is not a JavaScript error: it is
returned when the iteration bound of `parseLoop` is used up (this never
happens, see `parseString_ne_loopBound`). -/
inductive JSError where
  | typeError
  | syntaxError
  | loopBound
  deriving DecidableEq, Repr

/-! ## normalize on a string -/

/-- The code units `String.prototype.trim` strips: WhiteSpace and
LineTerminator of ECMAScript. -/
def isWhiteSpace (c : Nat) : Bool :=
  c == 0x09 || c == 0x0a || c == 0x0b || c == 0x0c || c == 0x0d || c == 0x20 ||
  c == 0xa0 || c == 0x1680 || inRange c 0x2000 0x200a || c == 0x2028 || c == 0x2029 ||
  c == 0x202f || c == 0x205f || c == 0x3000 || c == 0xfeff

/-- `uri.trim()`. -/
def trim (uri : Str) : Str := (uri.dropWhile isWhiteSpace).rdropWhile isWhiteSpace

/-- `uri.replace(/\n|\r/g, '')`. -/
def removeNewlines (uri : Str) : Str := uri.filter (fun c => !(c == 0x0a || c == 0x0d))

/-- `uri.replace(/^did:\/\//g, 'did:')`: the pattern is anchored at the start,
so at most one occurrence is replaced. -/
def replaceScheme (uri : Str) : Str :=
  if (lit "did://").isPrefixOf uri then lit "did:" ++ uri.drop 6 else uri

/-- Body of `normalize` for a string (lines 317-323). -/
def normalizeString (uri : Str) : Str := replaceScheme (removeNewlines (trim uri))

/-! ## parse on a string -/

/-- `peek(direction)`: the unit `direction` places after the cursor. -/
def peek (rest : Str) (direction : Nat) : Option Nat := rest.get? direction

/-- `next()`: the unit at the cursor, and the cursor advanced by one. -/
def next (rest : Str) : Option Nat × Str := (rest.head?, rest.tail)

/-- The record `ctx` as `parse` initialises it (lines 151-166). -/
def emptyCtx : DIDRecord :=
  { reference := none, did := none, method := none, identifier := none,
    path := none, fragment := none, query := none }

/-- The `for` loop of lines 175-178, with `j` iterations left: appends the
lower-cased unit at the cursor to `reference` and advances. -/
def protocolLoop : Nat → Str → Str → Str × Str
  | 0, reference, rest => (reference, rest)
  | j + 1, reference, rest => protocolLoop j (reference ++ toLower (peek rest 0)) (next rest).2

/-- Lines 172-186. -/
def protocolPhase (uri : Str) (ctx : DIDRecord) (rest : Str) :
    Except JSError (DIDRecord × Str) :=
  match ctx.reference with
  | none =>
    let (reference, rest) := protocolLoop 4 [] rest
    if reference ≠ lit "did:" then .error .syntaxError
    else .ok ({ ctx with reference := some (reference ++ uri.drop 4) }, rest)
  | some _ => .ok (ctx, rest)

/-- The `while` loop of lines 190-196. At the end of input `peek()` is
`undefined`, which differs from `:` and is not a method character. -/
def methodLoop : Str → Str → Except JSError (Str × Str)
  | _, [] => .error .syntaxError
  | method, c :: cs =>
    if c ≠ code ':' then
      if isValidMethodCharacter (some c) then methodLoop (method ++ [c]) cs
      else .error .syntaxError
    else .ok (method, c :: cs)

/-- Lines 188-202. -/
def methodPhase (ctx : DIDRecord) (rest : Str) : Except JSError (DIDRecord × Str) :=
  match ctx.method with
  | none =>
    match methodLoop [] rest with
    | .error e => .error e
    | .ok (method, rest) =>
      if (next rest).1 ≠ some (code ':') then .error .syntaxError
      else .ok ({ ctx with method := some method }, (next rest).2)
  | some _ => .ok (ctx, rest)

/-- The `while` loop of lines 208-214. -/
def identifierLoop : Str → Str → Except JSError (Str × Str)
  | identifier, [] => .ok (identifier, [])
  | identifier, c :: cs =>
    if c ≠ code '/' ∧ c ≠ code '?' ∧ c ≠ code '#' then
      if isValidIdentifierCharacter (some c) then identifierLoop (identifier ++ [c]) cs
      else .error .syntaxError
    else .ok (identifier, c :: cs)

/-- Lines 204-215. -/
def identifierPhase (ctx : DIDRecord) (rest : Str) : Except JSError (DIDRecord × Str) :=
  match ctx.identifier with
  | none =>
    match identifierLoop [] rest with
    | .error e => .error e
    | .ok (identifier, rest) => .ok ({ ctx with identifier := some identifier }, rest)
  | some _ => .ok (ctx, rest)

/-- Truthiness of a field that is `null` or a string. -/
def truthy : Option Str → Bool
  | none => false
  | some s => !s.isEmpty

/-- Lines 217-221. -/
def didPhase (ctx : DIDRecord) : DIDRecord :=
  match ctx.did with
  | none =>
    if truthy ctx.method && truthy ctx.identifier then
      { ctx with did := some (lit "did:" ++ ctx.method.getD [] ++ lit ":" ++ ctx.identifier.getD []) }
    else ctx
  | some _ => ctx

/-- The `while` loop of lines 240-246. -/
def pathLoop : Str → Str → Except JSError (Str × Str)
  | path, [] => .ok (path, [])
  | path, c :: cs =>
    if c ≠ code '?' ∧ c ≠ code '#' then
      if c = code '/' ∨ isValidPathCharacter (some c) then pathLoop (path ++ [c]) cs
      else .error .syntaxError
    else .ok (path, c :: cs)

/-- Lines 223-248. -/
def pathPhase (ctx : DIDRecord) (rest : Str) : Except JSError (DIDRecord × Str) :=
  match ctx.path with
  | none =>
    if peek rest 0 = some (code '/') then
      let path := (next rest).1.toList
      let rest := (next rest).2
      if isValidPathCharacter (peek rest 0) = false ∧ isValidQueryCharacter (peek rest 0) = false ∧
          isValidFragmentCharacter (peek rest 0) = false then .error .syntaxError
      else
        match pathLoop path rest with
        | .error e => .error e
        | .ok (path, rest) => .ok ({ ctx with path := some path }, rest)
    else .ok ({ ctx with path := some [] }, rest)
  | some _ => .ok (ctx, rest)

/-- The `while` loop of lines 262-268. -/
def queryLoop : Str → Str → Except JSError (Str × Str)
  | query, [] => .ok (query, [])
  | query, c :: cs =>
    if c ≠ code '#' then
      if isValidQueryCharacter (some c) then queryLoop (query ++ [c]) cs
      else .error .syntaxError
    else .ok (query, c :: cs)

/-- Lines 250-270. -/
def queryPhase (ctx : DIDRecord) (rest : Str) : Except JSError (DIDRecord × Str) :=
  match ctx.query with
  | none =>
    if peek rest 0 = some (code '?') then
      if isValidQueryCharacter (peek rest 1) = false then .error .syntaxError
      else
        match queryLoop [] (next rest).2 with
        | .error e => .error e
        | .ok (query, rest) => .ok ({ ctx with query := some query }, rest)
    else .ok ({ ctx with query := some [] }, rest)
  | some _ => .ok (ctx, rest)

/-- The `while` loop of lines 284-290. -/
def fragmentLoop : Str → Str → Except JSError (Str × Str)
  | fragment, [] => .ok (fragment, [])
  | fragment, c :: cs =>
    if c ≠ code '#' then
      if isValidFragmentCharacter (some c) then fragmentLoop (fragment ++ [c]) cs
      else .error .syntaxError
    else .ok (fragment, c :: cs)

/-- Lines 272-292. -/
def fragmentPhase (ctx : DIDRecord) (rest : Str) : Except JSError (DIDRecord × Str) :=
  match ctx.fragment with
  | none =>
    if peek rest 0 = some (code '#') then
      if isValidFragmentCharacter (peek rest 1) = false then .error .syntaxError
      else
        match fragmentLoop [] (next rest).2 with
        | .error e => .error e
        | .ok (fragment, rest) => .ok ({ ctx with fragment := some fragment }, rest)
    else .ok ({ ctx with fragment := some [] }, rest)
  | some _ => .ok (ctx, rest)

/-- One pass through the body of the outer `while` loop (lines 172-294). -/
def parseBody (uri : Str) (ctx : DIDRecord) (rest : Str) : Except JSError (DIDRecord × Str) := do
  let (ctx, rest) ← protocolPhase uri ctx rest
  let (ctx, rest) ← methodPhase ctx rest
  let (ctx, rest) ← identifierPhase ctx rest
  let ctx := didPhase ctx
  let (ctx, rest) ← pathPhase ctx rest
  let (ctx, rest) ← queryPhase ctx rest
  let (ctx, rest) ← fragmentPhase ctx rest
  pure (ctx, (next rest).2)

/-- The outer loop `while (peek()) ...` (lines 171-295), run for at most the
given number of iterations. -/
def parseLoop (uri : Str) : Nat → DIDRecord → Str → Except JSError DIDRecord
  | _, ctx, [] => .ok ctx
  | 0, _, _ :: _ => .error .loopBound
  | fuel + 1, ctx, c :: cs =>
    match parseBody uri ctx (c :: cs) with
    | .error e => .error e
    | .ok (ctx, rest) => parseLoop uri fuel ctx rest

/-- Lines 149-297 of `parse`, for a string argument. Every iteration of the
outer loop advances the cursor, so `uri.length` iterations are enough. -/
def parseString (uri : Str) : Except JSError DIDRecord :=
  let uri := normalizeString uri
  parseLoop uri uri.length emptyCtx uri

/-! ## format, parse, normalize -/

/-- `uri += s` where `uri` is `null` or a string: `null` is converted to the
text `null`. -/
def appendTo (uri : Option Str) (s : Str) : Option Str :=
  match uri with
  | none => some (lit "null" ++ s)
  | some u => some (u ++ s)

/-- Lines 335-351 of `format`. The argument of `parse(uri)` is `null` or a
string; `null` is rejected by the type check of `parse` (line 145). -/
def formatRecord (obj : DIDRecord) : Except JSError Str :=
  let uri := obj.did
  let uri := if truthy obj.path then appendTo uri (obj.path.getD []) else uri
  let uri := if truthy obj.query then appendTo uri (lit "?" ++ obj.query.getD []) else uri
  let uri := if truthy obj.fragment then appendTo uri (lit "#" ++ obj.fragment.getD []) else uri
  match uri with
  | none => .error .typeError
  | some uri =>
    match parseString uri with
    | .error e => .error e
    | .ok _ => .ok uri

/-- `format(obj)`. -/
def format : Value → Except JSError Str
  | .string s =>
    match parseString s with
    | .error e => .error e
    | .ok obj => formatRecord obj
  | .object o => if truthy o.did then formatRecord o else .error .typeError
  | _ => .error .typeError

/-- `parse(uri)`. -/
def parse : Value → Except JSError DIDRecord
  | .object o =>
    match format (.object o) with
    | .error e => .error e
    | .ok uri => parseString uri
  | .string uri => parseString uri
  | _ => .error .typeError

/-- `normalize(uri)`. -/
def normalize : Value → Except JSError Str
  | .object o =>
    match format (.object o) with
    | .error e => .error e
    | .ok uri => .ok (normalizeString uri)
  | .string uri => .ok (normalizeString uri)
  | _ => .error .typeError

/-! ## Specification-level notions used by the theorems -/

/-- An optional component with its delimiter: nothing when the component is
absent, the delimiter followed by the content when it is present. -/
def seg (delim : Nat) : Option Str → Str
  | none => []
  | some s => delim :: s

/-- Four units that lower-case to `did:`. -/
def IsDidPrefix (pre : Str) : Prop :=
  ∃ a b c, pre = [a, b, c, 58] ∧ (a = 100 ∨ a = 68) ∧ (b = 105 ∨ b = 73) ∧ (c = 100 ∨ c = 68)

/-- The shape of a normalized input that `parse` accepts: a `did:` prefix in
any case, the method, `:`, the identifier, then an optional path (content `p`
after its `/`), an optional query (content `q` after `?`), an optional fragment
(content `f` after `#`) and, after a fragment only, a remainder `t` that starts
with a second `#`. A delimiter that is present is never the last unit of the
input. -/
structure Shape (n pre m id : Str) (p q f : Option Str) (t : Str) : Prop where
  eq : n = pre ++ (m ++ 58 :: (id ++ (seg 47 p ++ (seg 63 q ++ (seg 35 f ++ t)))))
  pre_ok : IsDidPrefix pre
  m_ok : ∀ c ∈ m, isValidMethodCharacter (some c) = true
  id_ok : ∀ c ∈ id, isValidIdentifierCharacter (some c) = true
  p_ok : ∀ s, p = some s → (∀ c ∈ s, c = 47 ∨ isValidPathCharacter (some c) = true) ∧
    s ++ (seg 63 q ++ (seg 35 f ++ t)) ≠ []
  q_ok : ∀ s, q = some s → (∀ c ∈ s, isValidQueryCharacter (some c) = true ∧ c ≠ 35) ∧
    s ++ (seg 35 f ++ t) ≠ []
  f_ok : ∀ s, f = some s → (∀ c ∈ s, isValidQueryCharacter (some c) = true ∧ c ≠ 35) ∧
    s ++ t ≠ []
  t_ok : t = [] ∨ (f ≠ none ∧ t.head? = some 35)

/-- The record `parse` returns for an input of the given shape. -/
def mkRecord (n m id : Str) (p q f : Option Str) : DIDRecord :=
  { reference := some (lit "did:" ++ n.drop 4),
    did := if m ≠ [] ∧ id ≠ [] then some (lit "did:" ++ m ++ lit ":" ++ id) else none,
    method := some m,
    identifier := some id,
    path := some (seg 47 p),
    fragment := some (f.getD []),
    query := some (q.getD []) }

/-- A record on which every phase of the loop body is skipped. -/
def Settled (ctx : DIDRecord) : Prop :=
  ctx.reference ≠ none ∧ ctx.method ≠ none ∧ ctx.identifier ≠ none ∧ ctx.path ≠ none ∧
    ctx.query ≠ none ∧ ctx.fragment ≠ none ∧ didPhase ctx = ctx

/-- A string that neither starts nor ends with a unit `trim` strips. -/
def Trimmed (x : Str) : Prop :=
  (∀ c, x.head? = some c → isWhiteSpace c = false) ∧
    (∀ c, x.getLast? = some c → isWhiteSpace c = false)

/-- A string without line feed and carriage return. -/
def NoNewline (x : Str) : Prop := ∀ c ∈ x, c ≠ 10 ∧ c ≠ 13

/-- A component of the text `format` emits, in the words of the specification:
nothing unless the field is a non-empty string, else the delimiter followed by
the field. -/
def part (delim : Str) : Option Str → Str
  | some s => if s = [] then [] else delim ++ s
  | none => []

/-- The text `format` emits for a record whose `did` is the string `d`, in the
words of the specification: `did`, then `path` if non-empty, then `?` and
`query` if non-empty, then `#` and `fragment` if non-empty. -/
def assembled (d : Str) (r : DIDRecord) : Str :=
  d ++ part [] r.path ++ part (lit "?") r.query ++ part (lit "#") r.fragment

/-- A component that is absent when its text is empty. -/
def optOf (s : Str) : Option Str := if s = [] then none else some s

/-- The record `parse` returns for `did:m:id`. -/
def sampleRecord : DIDRecord :=
  { reference := some (lit "did:m:id"), did := some (lit "did:m:id"), method := some (lit "m"),
    identifier := some (lit "id"), path := some [], fragment := some [], query := some [] }

/-! ## Character codes and classifier facts -/

theorem code_colon : code ':' = 58 := rfl
theorem code_slash : code '/' = 47 := rfl
theorem code_question : code '?' = 63 := rfl
theorem code_hash : code '#' = 35 := rfl

theorem lit_did : lit "did:" = [100, 105, 100, 58] := rfl
theorem lit_did_slashes : lit "did://" = [100, 105, 100, 58, 47, 47] := rfl
theorem lit_colon : lit ":" = [58] := rfl
theorem lit_question : lit "?" = [63] := rfl
theorem lit_hash : lit "#" = [35] := rfl

theorem pathChars_eq :
    ALPHA ++ DIGIT ++ lit "!$&'()*+,;=" ++ [code ':'] ++ [code '@'] =
      [97, 98, 99, 100, 101, 102, 103, 104, 105, 106, 107, 108, 109, 110, 111, 112, 113, 114,
       115, 116, 117, 118, 119, 120, 121, 122, 65, 66, 67, 68, 69, 70, 71, 72, 73, 74, 75, 76,
       77, 78, 79, 80, 81, 82, 83, 84, 85, 86, 87, 88, 89, 90, 48, 49, 50, 51, 52, 53, 54, 55,
       56, 57, 33, 36, 38, 39, 40, 41, 42, 43, 44, 59, 61, 58, 64] := rfl

theorem queryChars_eq :
    ALPHA ++ DIGIT ++ lit ":/?#[]@" ++ lit "!$&'()*+,;=" ++ lit "%-_~" ++ [code '.'] =
      [97, 98, 99, 100, 101, 102, 103, 104, 105, 106, 107, 108, 109, 110, 111, 112, 113, 114,
       115, 116, 117, 118, 119, 120, 121, 122, 65, 66, 67, 68, 69, 70, 71, 72, 73, 74, 75, 76,
       77, 78, 79, 80, 81, 82, 83, 84, 85, 86, 87, 88, 89, 90, 48, 49, 50, 51, 52, 53, 54, 55,
       56, 57, 58, 47, 63, 35, 91, 93, 64, 33, 36, 38, 39, 40, 41, 42, 43, 44, 59, 61, 37, 45,
       95, 126, 46] := rfl

theorem isValidMethodCharacter_iff (c : Nat) :
    isValidMethodCharacter (some c) = true ↔ (48 ≤ c ∧ c ≤ 57) ∨ (97 ≤ c ∧ c ≤ 122) := by
  simp only [isValidMethodCharacter, inRange, Bool.or_eq_true, Bool.and_eq_true,
    decide_eq_true_eq, ge_iff_le]

theorem isValidIdentifierCharacter_iff (c : Nat) :
    isValidIdentifierCharacter (some c) = true ↔
      c = 45 ∨ c = 46 ∨ c = 58 ∨ (48 ≤ c ∧ c ≤ 57) ∨ (97 ≤ c ∧ c ≤ 122) ∨
        (65 ≤ c ∧ c ≤ 90) := by
  simp only [isValidIdentifierCharacter, inRange, Bool.or_eq_true, Bool.and_eq_true,
    beq_iff_eq, decide_eq_true_eq]
  constructor <;> intro h <;> omega

theorem isValidPathCharacter_iff (c : Nat) :
    isValidPathCharacter (some c) = true ↔
      (97 ≤ c ∧ c ≤ 122) ∨ (65 ≤ c ∧ c ≤ 90) ∨ (48 ≤ c ∧ c ≤ 57) ∨
        c = 33 ∨ c = 36 ∨ (38 ≤ c ∧ c ≤ 44) ∨ c = 58 ∨ c = 59 ∨ c = 61 ∨ c = 64 := by
  simp only [isValidPathCharacter, pathChars_eq, List.contains_eq_any_beq, List.any_eq_true,
    beq_iff_eq]
  simp only [List.mem_cons, List.mem_singleton, List.not_mem_nil, or_false, exists_eq_right']
  constructor <;> intro h <;> omega

theorem isValidQueryCharacter_iff (c : Nat) :
    isValidQueryCharacter (some c) = true ↔
      (97 ≤ c ∧ c ≤ 122) ∨ (63 ≤ c ∧ c ≤ 91) ∨ (35 ≤ c ∧ c ≤ 59) ∨
        c = 33 ∨ c = 61 ∨ c = 93 ∨ c = 95 ∨ c = 126 := by
  simp only [isValidQueryCharacter, queryChars_eq, List.contains_eq_any_beq, List.any_eq_true,
    beq_iff_eq]
  simp only [List.mem_cons, List.mem_singleton, List.not_mem_nil, or_false, exists_eq_right']
  constructor <;> intro h <;> omega

theorem isWhiteSpace_iff (c : Nat) :
    isWhiteSpace c = true ↔
      (9 ≤ c ∧ c ≤ 13) ∨ c = 32 ∨ c = 160 ∨ c = 5760 ∨ (8192 ≤ c ∧ c ≤ 8202) ∨
        c = 8232 ∨ c = 8233 ∨ c = 8239 ∨ c = 8287 ∨ c = 12288 ∨ c = 65279 := by
  simp only [isWhiteSpace, inRange, Bool.or_eq_true, Bool.and_eq_true, beq_iff_eq,
    decide_eq_true_eq]
  constructor <;> intro h <;> omega

/-! ## The scanning loops -/

theorem methodLoop_append (m cs : Str) (hm : ∀ c ∈ m, isValidMethodCharacter (some c) = true)
    (acc : Str) : methodLoop acc (m ++ 58 :: cs) = .ok (acc ++ m, 58 :: cs) := by
  induction m generalizing acc with
  | nil => simp [methodLoop, code_colon]
  | cons c m ih =>
    have hc := hm c (List.mem_cons_self _ _)
    have hne : c ≠ 58 := by
      have := (isValidMethodCharacter_iff c).1 hc
      omega
    simp only [List.cons_append, methodLoop, code_colon, ne_eq, hne, not_false_eq_true,
      if_true, hc, List.append_eq]
    rw [ih (fun x hx => hm x (List.mem_cons_of_mem _ hx))]
    simp

theorem methodLoop_inv (rest acc acc' rest' : Str)
    (h : methodLoop acc rest = .ok (acc', rest')) :
    ∃ m cs, rest = m ++ 58 :: cs ∧ rest' = 58 :: cs ∧ acc' = acc ++ m ∧
      ∀ c ∈ m, isValidMethodCharacter (some c) = true := by
  induction rest generalizing acc with
  | nil => simp [methodLoop] at h
  | cons c cs ih =>
    simp only [methodLoop, code_colon] at h
    by_cases hc : c = 58
    · subst hc
      simp at h
      exact ⟨[], cs, by simp, h.2.symm, by simp [h.1], by simp⟩
    · by_cases hv : isValidMethodCharacter (some c) = true
      · simp only [ne_eq, hc, not_false_eq_true, if_true, hv] at h
        obtain ⟨m, cs', h1, h2, h3, h4⟩ := ih _ h
        refine ⟨c :: m, cs', by simp [h1], h2, by simp [h3], ?_⟩
        intro x hx
        rcases List.mem_cons.1 hx with rfl | hx
        · exact hv
        · exact h4 x hx
      · simp [hc, hv] at h

theorem identifierLoop_append (id rest : Str)
    (hid : ∀ c ∈ id, isValidIdentifierCharacter (some c) = true)
    (hrest : ∀ c, rest.head? = some c → c = 47 ∨ c = 63 ∨ c = 35) (acc : Str) :
    identifierLoop acc (id ++ rest) = .ok (acc ++ id, rest) := by
  induction id generalizing acc with
  | nil =>
    cases rest with
    | nil => simp [identifierLoop]
    | cons c cs =>
      have := hrest c rfl
      have hn : ¬ (c ≠ 47 ∧ c ≠ 63 ∧ c ≠ 35) := by omega
      simp [identifierLoop, code_slash, code_question, code_hash, hn]
  | cons c id ih =>
    have hc := hid c (List.mem_cons_self _ _)
    have hne : c ≠ 47 ∧ c ≠ 63 ∧ c ≠ 35 := by
      have := (isValidIdentifierCharacter_iff c).1 hc
      omega
    simp only [List.cons_append, identifierLoop, code_slash, code_question, code_hash,
      List.append_eq]
    rw [if_pos hne, if_pos hc, ih (fun x hx => hid x (List.mem_cons_of_mem _ hx))]
    simp

theorem identifierLoop_inv (rest acc acc' rest' : Str)
    (h : identifierLoop acc rest = .ok (acc', rest')) :
    ∃ id, rest = id ++ rest' ∧ acc' = acc ++ id ∧
      (∀ c ∈ id, isValidIdentifierCharacter (some c) = true) ∧
      (∀ c, rest'.head? = some c → c = 47 ∨ c = 63 ∨ c = 35) := by
  induction rest generalizing acc with
  | nil =>
    simp only [identifierLoop, Except.ok.injEq, Prod.mk.injEq] at h
    exact ⟨[], by simp [← h.2], by simp [h.1], by simp, by simp [← h.2]⟩
  | cons c cs ih =>
    simp only [identifierLoop, code_slash, code_question, code_hash] at h
    by_cases hc : c ≠ 47 ∧ c ≠ 63 ∧ c ≠ 35
    · by_cases hv : isValidIdentifierCharacter (some c) = true
      · rw [if_pos hc, if_pos hv] at h
        obtain ⟨id, h1, h2, h3, h4⟩ := ih _ h
        refine ⟨c :: id, by simp [← h1], by simp [h2], ?_, h4⟩
        intro x hx
        rcases List.mem_cons.1 hx with rfl | hx
        · exact hv
        · exact h3 x hx
      · rw [if_pos hc, if_neg hv] at h
        cases h
    · rw [if_neg hc] at h
      simp only [Except.ok.injEq, Prod.mk.injEq] at h
      refine ⟨[], by simp [← h.2], by simp [h.1], by simp, ?_⟩
      intro x hx
      rw [← h.2] at hx
      simp only [List.head?_cons, Option.some.injEq] at hx
      omega

theorem pathLoop_append (p rest : Str)
    (hp : ∀ c ∈ p, c = 47 ∨ isValidPathCharacter (some c) = true)
    (hrest : ∀ c, rest.head? = some c → c = 63 ∨ c = 35) (acc : Str) :
    pathLoop acc (p ++ rest) = .ok (acc ++ p, rest) := by
  induction p generalizing acc with
  | nil =>
    cases rest with
    | nil => simp [pathLoop]
    | cons c cs =>
      have := hrest c rfl
      have hn : ¬ (c ≠ 63 ∧ c ≠ 35) := by omega
      simp [pathLoop, code_question, code_hash, hn]
  | cons c p ih =>
    have hc := hp c (List.mem_cons_self _ _)
    have hne : c ≠ 63 ∧ c ≠ 35 := by
      rcases hc with hc | hc
      · omega
      · have := (isValidPathCharacter_iff c).1 hc
        omega
    simp only [List.cons_append, pathLoop, code_slash, code_question, code_hash,
      List.append_eq]
    rw [if_pos hne, if_pos hc, ih (fun x hx => hp x (List.mem_cons_of_mem _ hx))]
    simp

theorem pathLoop_inv (rest acc acc' rest' : Str)
    (h : pathLoop acc rest = .ok (acc', rest')) :
    ∃ p, rest = p ++ rest' ∧ acc' = acc ++ p ∧
      (∀ c ∈ p, c = 47 ∨ isValidPathCharacter (some c) = true) ∧
      (∀ c, rest'.head? = some c → c = 63 ∨ c = 35) := by
  induction rest generalizing acc with
  | nil =>
    simp only [pathLoop, Except.ok.injEq, Prod.mk.injEq] at h
    exact ⟨[], by simp [← h.2], by simp [h.1], by simp, by simp [← h.2]⟩
  | cons c cs ih =>
    simp only [pathLoop, code_slash, code_question, code_hash] at h
    by_cases hc : c ≠ 63 ∧ c ≠ 35
    · by_cases hv : c = 47 ∨ isValidPathCharacter (some c) = true
      · rw [if_pos hc, if_pos hv] at h
        obtain ⟨p, h1, h2, h3, h4⟩ := ih _ h
        refine ⟨c :: p, by simp [← h1], by simp [h2], ?_, h4⟩
        intro x hx
        rcases List.mem_cons.1 hx with rfl | hx
        · exact hv
        · exact h3 x hx
      · rw [if_pos hc, if_neg hv] at h
        cases h
    · rw [if_neg hc] at h
      simp only [Except.ok.injEq, Prod.mk.injEq] at h
      refine ⟨[], by simp [← h.2], by simp [h.1], by simp, ?_⟩
      intro x hx
      rw [← h.2] at hx
      simp only [List.head?_cons, Option.some.injEq] at hx
      omega

theorem queryLoop_append (q rest : Str)
    (hq : ∀ c ∈ q, isValidQueryCharacter (some c) = true ∧ c ≠ 35)
    (hrest : ∀ c, rest.head? = some c → c = 35) (acc : Str) :
    queryLoop acc (q ++ rest) = .ok (acc ++ q, rest) := by
  induction q generalizing acc with
  | nil =>
    cases rest with
    | nil => simp [queryLoop]
    | cons c cs =>
      have := hrest c rfl
      simp [queryLoop, code_hash, this]
  | cons c q ih =>
    have hc := hq c (List.mem_cons_self _ _)
    simp only [List.cons_append, queryLoop, code_hash, ne_eq, hc.2, not_false_eq_true,
      if_true, hc.1, List.append_eq]
    rw [ih (fun x hx => hq x (List.mem_cons_of_mem _ hx))]
    simp

theorem queryLoop_inv (rest acc acc' rest' : Str)
    (h : queryLoop acc rest = .ok (acc', rest')) :
    ∃ q, rest = q ++ rest' ∧ acc' = acc ++ q ∧
      (∀ c ∈ q, isValidQueryCharacter (some c) = true ∧ c ≠ 35) ∧
      (∀ c, rest'.head? = some c → c = 35) := by
  induction rest generalizing acc with
  | nil =>
    simp only [queryLoop, Except.ok.injEq, Prod.mk.injEq] at h
    exact ⟨[], by simp [← h.2], by simp [h.1], by simp, by simp [← h.2]⟩
  | cons c cs ih =>
    simp only [queryLoop, code_hash] at h
    by_cases hc : c ≠ 35
    · by_cases hv : isValidQueryCharacter (some c) = true
      · rw [if_pos hc, if_pos hv] at h
        obtain ⟨q, h1, h2, h3, h4⟩ := ih _ h
        refine ⟨c :: q, by simp [← h1], by simp [h2], ?_, h4⟩
        intro x hx
        rcases List.mem_cons.1 hx with rfl | hx
        · exact ⟨hv, hc⟩
        · exact h3 x hx
      · rw [if_pos hc, if_neg hv] at h
        cases h
    · rw [if_neg hc] at h
      simp only [Except.ok.injEq, Prod.mk.injEq] at h
      refine ⟨[], by simp [← h.2], by simp [h.1], by simp, ?_⟩
      intro x hx
      rw [← h.2] at hx
      simp only [List.head?_cons, Option.some.injEq] at hx
      omega

theorem fragmentLoop_eq_queryLoop (rest acc : Str) : fragmentLoop acc rest = queryLoop acc rest := by
  induction rest generalizing acc with
  | nil => rfl
  | cons c cs ih => simp only [fragmentLoop, queryLoop, isValidFragmentCharacter, ih]

/-! ## The phases of the loop body -/

theorem toLower_some (c : Nat) :
    toLower (some c) = [if 65 ≤ c ∧ c ≤ 90 then c + 32 else c] := by
  simp only [toLower]
  split <;> rfl

theorem protocolLoop_four (a b c d : Nat) (rest : Str) :
    protocolLoop 4 [] (a :: b :: c :: d :: rest) =
      (toLower (some a) ++ toLower (some b) ++ toLower (some c) ++ toLower (some d), rest) := by
  simp [protocolLoop, peek, next]

theorem protocolLoop_of_prefix (pre rest : Str) (h : IsDidPrefix pre) :
    protocolLoop 4 [] (pre ++ rest) = (lit "did:", rest) := by
  obtain ⟨a, b, c, rfl, ha, hb, hc⟩ := h
  simp only [List.cons_append, List.nil_append, protocolLoop_four, toLower_some, lit_did]
  rcases ha with rfl | rfl <;> rcases hb with rfl | rfl <;> rcases hc with rfl | rfl <;> rfl

theorem protocolLoop_inv (uri rest : Str) (h : protocolLoop 4 [] uri = (lit "did:", rest)) :
    ∃ pre, IsDidPrefix pre ∧ uri = pre ++ rest := by
  match uri, h with
  | [], h => simp [protocolLoop, peek, next, toLower] at h; exact absurd (congrArg List.length h.1) (by decide)
  | [a], h =>
    simp [protocolLoop, peek, next, toLower_some] at h
    exact absurd (congrArg List.length h.1) (by simp [toLower, lit])
  | [a, b], h =>
    simp [protocolLoop, peek, next, toLower_some] at h
    exact absurd (congrArg List.length h.1) (by simp [toLower, lit])
  | [a, b, c], h =>
    simp [protocolLoop, peek, next, toLower_some] at h
    exact absurd (congrArg List.length h.1) (by simp [toLower, lit])
  | a :: b :: c :: d :: tl, h =>
    rw [protocolLoop_four] at h
    simp only [toLower_some, lit_did, List.cons_append, List.nil_append, Prod.mk.injEq,
      List.cons.injEq, and_true] at h
    obtain ⟨⟨ha, hb, hc, hd⟩, rfl⟩ := h
    refine ⟨[a, b, c, d], ⟨a, b, c, ?_, ?_, ?_, ?_⟩, rfl⟩
    · have : d = 58 := by split at hd <;> omega
      rw [this]
    · split at ha <;> omega
    · split at hb <;> omega
    · split at hc <;> omega

theorem seg_head (d : Nat) (x : Option Str) (rest : Str) (c : Nat)
    (h : (seg d x ++ rest).head? = some c) : c = d ∨ (x = none ∧ rest.head? = some c) := by
  cases x with
  | none => right; simpa [seg] using h
  | some s => left; simp only [seg, List.cons_append, List.head?_cons, Option.some.injEq] at h; omega

theorem lookahead_of_valid (c : Nat)
    (h : c = 47 ∨ c = 63 ∨ c = 35 ∨ isValidPathCharacter (some c) = true) :
    ¬ (isValidPathCharacter (some c) = false ∧ isValidQueryCharacter (some c) = false ∧
      isValidFragmentCharacter (some c) = false) := by
  rintro ⟨h1, h2, -⟩
  have hq : isValidQueryCharacter (some c) = true := by
    rw [isValidQueryCharacter_iff]
    rcases h with h | h | h | h
    · omega
    · omega
    · omega
    · rw [h1] at h; cases h
  rw [h2] at hq
  cases hq

theorem pathPhase_of (ctx : DIDRecord) (hctx : ctx.path = none) (p : Option Str) (rest : Str)
    (hp : ∀ s, p = some s → (∀ c ∈ s, c = 47 ∨ isValidPathCharacter (some c) = true) ∧
      s ++ rest ≠ [])
    (hrest : ∀ c, rest.head? = some c → c = 63 ∨ c = 35) :
    pathPhase ctx (seg 47 p ++ rest) = .ok ({ ctx with path := some (seg 47 p) }, rest) := by
  cases p with
  | none =>
    have hne : ¬ (rest.head? = some 47) := by
      intro h
      have := hrest 47 h
      omega
    cases rest with
    | nil => simp [pathPhase, hctx, seg, peek, code_slash]
    | cons c cs =>
      simp only [List.head?_cons, Option.some.injEq] at hne
      simp [pathPhase, hctx, seg, peek, code_slash, hne]
  | some s =>
    obtain ⟨hs, hne⟩ := hp s rfl
    have hlook : ¬ (isValidPathCharacter (peek (s ++ rest) 0) = false ∧
        isValidQueryCharacter (peek (s ++ rest) 0) = false ∧
        isValidFragmentCharacter (peek (s ++ rest) 0) = false) := by
      cases s with
      | nil =>
        cases rest with
        | nil => exact absurd rfl hne
        | cons c cs =>
          have := hrest c rfl
          exact lookahead_of_valid c (by omega)
      | cons c cs =>
        have := hs c (List.mem_cons_self _ _)
        exact lookahead_of_valid c (by tauto)
    simp only [pathPhase, hctx, seg, List.cons_append, peek, List.get?_cons_zero, code_slash,
      if_true, next, List.head?_cons, Option.toList_some, List.tail_cons]
    simp only [peek] at hlook
    rw [if_neg hlook, pathLoop_append s rest hs hrest]
    rfl

theorem queryPhase_of (ctx : DIDRecord) (hctx : ctx.query = none) (q : Option Str) (rest : Str)
    (hq : ∀ s, q = some s → (∀ c ∈ s, isValidQueryCharacter (some c) = true ∧ c ≠ 35) ∧
      s ++ rest ≠ [])
    (hrest : ∀ c, rest.head? = some c → c = 35) :
    queryPhase ctx (seg 63 q ++ rest) = .ok ({ ctx with query := some (q.getD []) }, rest) := by
  cases q with
  | none =>
    cases rest with
    | nil => simp [queryPhase, hctx, seg, peek, code_question]
    | cons c cs =>
      have := hrest c rfl
      subst this
      simp [queryPhase, hctx, seg, peek, code_question]
  | some s =>
    obtain ⟨hs, hne⟩ := hq s rfl
    have hlook : isValidQueryCharacter (peek (63 :: (s ++ rest)) 1) = true := by
      cases s with
      | nil =>
        cases rest with
        | nil => exact absurd rfl hne
        | cons c cs =>
          have := hrest c rfl
          subst this
          rfl
      | cons c cs => exact (hs c (List.mem_cons_self _ _)).1
    simp only [queryPhase, hctx, seg, List.cons_append, code_question, next, List.tail_cons]
    rw [if_pos (by simp [peek]), if_neg (by simp [hlook]), queryLoop_append s rest hs hrest]
    rfl

theorem fragmentPhase_of (ctx : DIDRecord) (hctx : ctx.fragment = none) (f : Option Str)
    (rest : Str)
    (hf : ∀ s, f = some s → (∀ c ∈ s, isValidQueryCharacter (some c) = true ∧ c ≠ 35) ∧
      s ++ rest ≠ [])
    (hrest : rest = [] ∨ (f ≠ none ∧ rest.head? = some 35)) :
    fragmentPhase ctx (seg 35 f ++ rest) =
      .ok ({ ctx with fragment := some (f.getD []) }, rest) := by
  cases f with
  | none =>
    have : rest = [] := by
      rcases hrest with h | h
      · exact h
      · exact absurd rfl h.1
    subst this
    simp [fragmentPhase, hctx, seg, peek, code_hash]
  | some s =>
    obtain ⟨hs, hne⟩ := hf s rfl
    have hrest' : ∀ c, rest.head? = some c → c = 35 := by
      intro c hc
      rcases hrest with h | h
      · simp [h] at hc
      · rw [h.2] at hc
        exact (Option.some.inj hc).symm
    have hlook : isValidFragmentCharacter (peek (35 :: (s ++ rest)) 1) = true := by
      cases s with
      | nil =>
        cases rest with
        | nil => exact absurd rfl hne
        | cons c cs =>
          have := hrest' c rfl
          subst this
          rfl
      | cons c cs => exact (hs c (List.mem_cons_self _ _)).1
    simp only [fragmentPhase, hctx, seg, List.cons_append, code_hash, next, List.tail_cons]
    rw [if_pos (by simp [peek]), if_neg (by simp [hlook]), fragmentLoop_eq_queryLoop,
      queryLoop_append s rest hs hrest']
    rfl

theorem Shape.head_query {n pre m id : Str} {p q f : Option Str} {t : Str}
    (h : Shape n pre m id p q f t) (c : Nat)
    (hc : (seg 35 f ++ t).head? = some c) : c = 35 := by
  rcases seg_head 35 f t c hc with h1 | ⟨h1, h2⟩
  · exact h1
  · rcases h.t_ok with h3 | h3
    · simp [h3] at h2
    · exact absurd h1 h3.1

theorem Shape.head_path {n pre m id : Str} {p q f : Option Str} {t : Str}
    (h : Shape n pre m id p q f t) (c : Nat)
    (hc : (seg 63 q ++ (seg 35 f ++ t)).head? = some c) : c = 63 ∨ c = 35 := by
  rcases seg_head 63 q _ c hc with h1 | ⟨_, h2⟩
  · exact Or.inl h1
  · exact Or.inr (h.head_query c h2)

theorem Shape.head_identifier {n pre m id : Str} {p q f : Option Str} {t : Str}
    (h : Shape n pre m id p q f t) (c : Nat)
    (hc : (seg 47 p ++ (seg 63 q ++ (seg 35 f ++ t))).head? = some c) :
    c = 47 ∨ c = 63 ∨ c = 35 := by
  rcases seg_head 47 p _ c hc with h1 | ⟨_, h2⟩
  · exact Or.inl h1
  · exact Or.inr (h.head_path c h2)

theorem didPhase_of (ctx : DIDRecord) (m id : Str) (hd : ctx.did = none)
    (hm : ctx.method = some m) (hi : ctx.identifier = some id) :
    didPhase ctx = { ctx with
      did := (if m ≠ [] ∧ id ≠ [] then some (lit "did:" ++ m ++ lit ":" ++ id) else none) } := by
  obtain ⟨r, d, m', i', p, f, q⟩ := ctx
  simp only at hd hm hi
  subst hd hm hi
  by_cases h1 : m = [] <;> by_cases h2 : id = [] <;> simp [didPhase, truthy, h1, h2]

theorem parseBody_of_shape {n pre m id : Str} {p q f : Option Str} {t : Str}
    (h : Shape n pre m id p q f t) :
    parseBody n emptyCtx n = .ok (mkRecord n m id p q f, t.tail) := by
  have e1 : protocolPhase n emptyCtx n =
      .ok ({ emptyCtx with reference := some (lit "did:" ++ n.drop 4) },
        m ++ 58 :: (id ++ (seg 47 p ++ (seg 63 q ++ (seg 35 f ++ t))))) := by
    have hp := protocolLoop_of_prefix pre
      (m ++ 58 :: (id ++ (seg 47 p ++ (seg 63 q ++ (seg 35 f ++ t))))) h.pre_ok
    rw [← h.eq] at hp
    simp [protocolPhase, emptyCtx, hp]
  have e2 : ∀ ctx : DIDRecord, ctx.method = none →
      methodPhase ctx (m ++ 58 :: (id ++ (seg 47 p ++ (seg 63 q ++ (seg 35 f ++ t))))) =
        .ok ({ ctx with method := some m }, id ++ (seg 47 p ++ (seg 63 q ++ (seg 35 f ++ t)))) := by
    intro ctx hctx
    simp [methodPhase, hctx, methodLoop_append m _ h.m_ok, next, code_colon]
  have e3 : ∀ ctx : DIDRecord, ctx.identifier = none →
      identifierPhase ctx (id ++ (seg 47 p ++ (seg 63 q ++ (seg 35 f ++ t)))) =
        .ok ({ ctx with identifier := some id }, seg 47 p ++ (seg 63 q ++ (seg 35 f ++ t))) := by
    intro ctx hctx
    simp [identifierPhase, hctx, identifierLoop_append id _ h.id_ok h.head_identifier]
  simp only [parseBody, e1, bind, Except.bind]
  rw [e2 _ rfl]
  simp only []
  rw [e3 _ rfl]
  simp only []
  rw [didPhase_of _ m id rfl rfl rfl]
  rw [pathPhase_of _ rfl p _ h.p_ok h.head_path]
  simp only []
  rw [queryPhase_of _ rfl q _ h.q_ok h.head_query]
  simp only []
  rw [fragmentPhase_of _ rfl f _ h.f_ok h.t_ok]
  simp [pure, Except.pure, next, mkRecord, emptyCtx]

theorem pathPhase_inv (ctx ctx' : DIDRecord) (hctx : ctx.path = none) (rest rest' : Str)
    (hin : ∀ c, rest.head? = some c → c = 47 ∨ c = 63 ∨ c = 35)
    (h : pathPhase ctx rest = .ok (ctx', rest')) :
    ∃ p, rest = seg 47 p ++ rest' ∧ ctx' = { ctx with path := some (seg 47 p) } ∧
      (∀ s, p = some s → (∀ c ∈ s, c = 47 ∨ isValidPathCharacter (some c) = true) ∧
        s ++ rest' ≠ []) ∧
      (∀ c, rest'.head? = some c → c = 63 ∨ c = 35) := by
  simp only [pathPhase, hctx, code_slash] at h
  by_cases h0 : peek rest 0 = some 47
  · rw [if_pos h0] at h
    obtain ⟨cs, rfl⟩ : ∃ cs, rest = 47 :: cs := by
      cases rest with
      | nil => simp [peek] at h0
      | cons c cs => simp only [peek, List.get?_cons_zero, Option.some.injEq] at h0; exact ⟨cs, by rw [h0]⟩
    simp only [next, List.head?_cons, Option.toList_some, List.tail_cons] at h
    split at h
    · cases h
    · rename_i hg
      cases hl : pathLoop [47] cs with
      | error e => rw [hl] at h; cases h
      | ok r =>
        obtain ⟨acc, r'⟩ := r
        rw [hl] at h
        simp only [Except.ok.injEq, Prod.mk.injEq] at h
        obtain ⟨h1, h2⟩ := h
        subst h2
        obtain ⟨s, e1, e2, e3, e4⟩ := pathLoop_inv _ _ _ _ hl
        subst e2
        refine ⟨some s, by simp [seg, e1], by simp [seg, ← h1], ?_, e4⟩
        intro s' hs'
        cases hs'
        refine ⟨e3, ?_⟩
        intro hnil
        rw [← e1] at hnil
        subst hnil
        exact hg (by simp [peek, isValidPathCharacter, isValidQueryCharacter,
          isValidFragmentCharacter])
  · rw [if_neg h0] at h
    simp only [Except.ok.injEq, Prod.mk.injEq] at h
    obtain ⟨h1, h2⟩ := h
    subst h2
    refine ⟨none, by simp [seg], by simp [seg, ← h1], by simp, ?_⟩
    intro c hc
    have := hin c hc
    cases rest with
    | nil => simp at hc
    | cons d ds =>
      simp only [List.head?_cons, Option.some.injEq] at hc
      simp only [peek, List.get?_cons_zero, Option.some.injEq] at h0
      omega

theorem queryPhase_inv (ctx ctx' : DIDRecord) (hctx : ctx.query = none) (rest rest' : Str)
    (hin : ∀ c, rest.head? = some c → c = 63 ∨ c = 35)
    (h : queryPhase ctx rest = .ok (ctx', rest')) :
    ∃ q, rest = seg 63 q ++ rest' ∧ ctx' = { ctx with query := some (q.getD []) } ∧
      (∀ s, q = some s → (∀ c ∈ s, isValidQueryCharacter (some c) = true ∧ c ≠ 35) ∧
        s ++ rest' ≠ []) ∧
      (∀ c, rest'.head? = some c → c = 35) := by
  simp only [queryPhase, hctx, code_question] at h
  by_cases h0 : peek rest 0 = some 63
  · rw [if_pos h0] at h
    obtain ⟨cs, rfl⟩ : ∃ cs, rest = 63 :: cs := by
      cases rest with
      | nil => simp [peek] at h0
      | cons c cs => simp only [peek, List.get?_cons_zero, Option.some.injEq] at h0; exact ⟨cs, by rw [h0]⟩
    simp only [next, List.tail_cons] at h
    split at h
    · cases h
    · rename_i hg
      cases hl : queryLoop [] cs with
      | error e => rw [hl] at h; cases h
      | ok r =>
        obtain ⟨acc, r'⟩ := r
        rw [hl] at h
        simp only [Except.ok.injEq, Prod.mk.injEq] at h
        obtain ⟨h1, h2⟩ := h
        subst h2
        obtain ⟨s, e1, e2, e3, e4⟩ := queryLoop_inv _ _ _ _ hl
        simp only [List.nil_append] at e2
        subst e2
        refine ⟨some acc, by simp [seg, e1], by simp [← h1], ?_, e4⟩
        intro s' hs'
        cases hs'
        refine ⟨e3, ?_⟩
        intro hnil
        rw [← e1] at hnil
        subst hnil
        exact hg (by simp [peek, isValidQueryCharacter])
  · rw [if_neg h0] at h
    simp only [Except.ok.injEq, Prod.mk.injEq] at h
    obtain ⟨h1, h2⟩ := h
    subst h2
    refine ⟨none, by simp [seg], by simp [← h1], by simp, ?_⟩
    intro c hc
    have := hin c hc
    cases rest with
    | nil => simp at hc
    | cons d ds =>
      simp only [List.head?_cons, Option.some.injEq] at hc
      simp only [peek, List.get?_cons_zero, Option.some.injEq] at h0
      omega

theorem fragmentPhase_inv (ctx ctx' : DIDRecord) (hctx : ctx.fragment = none)
    (rest rest' : Str) (hin : ∀ c, rest.head? = some c → c = 35)
    (h : fragmentPhase ctx rest = .ok (ctx', rest')) :
    ∃ f, rest = seg 35 f ++ rest' ∧ ctx' = { ctx with fragment := some (f.getD []) } ∧
      (∀ s, f = some s → (∀ c ∈ s, isValidQueryCharacter (some c) = true ∧ c ≠ 35) ∧
        s ++ rest' ≠ []) ∧
      (rest' = [] ∨ (f ≠ none ∧ rest'.head? = some 35)) := by
  simp only [fragmentPhase, hctx, code_hash] at h
  by_cases h0 : peek rest 0 = some 35
  · rw [if_pos h0] at h
    obtain ⟨cs, rfl⟩ : ∃ cs, rest = 35 :: cs := by
      cases rest with
      | nil => simp [peek] at h0
      | cons c cs => simp only [peek, List.get?_cons_zero, Option.some.injEq] at h0; exact ⟨cs, by rw [h0]⟩
    simp only [next, List.tail_cons, fragmentLoop_eq_queryLoop] at h
    split at h
    · cases h
    · rename_i hg
      cases hl : queryLoop [] cs with
      | error e => rw [hl] at h; cases h
      | ok r =>
        obtain ⟨acc, r'⟩ := r
        rw [hl] at h
        simp only [Except.ok.injEq, Prod.mk.injEq] at h
        obtain ⟨h1, h2⟩ := h
        subst h2
        obtain ⟨s, e1, e2, e3, e4⟩ := queryLoop_inv _ _ _ _ hl
        simp only [List.nil_append] at e2
        subst e2
        refine ⟨some acc, by simp [seg, e1], by simp [← h1], ?_, ?_⟩
        · intro s' hs'
          cases hs'
          refine ⟨e3, ?_⟩
          intro hnil
          rw [← e1] at hnil
          subst hnil
          exact hg (by simp [peek, isValidFragmentCharacter, isValidQueryCharacter])
        · cases r' with
          | nil => exact Or.inl rfl
          | cons d ds =>
            have := e4 d rfl
            subst this
            exact Or.inr ⟨by simp, rfl⟩
  · rw [if_neg h0] at h
    simp only [Except.ok.injEq, Prod.mk.injEq] at h
    obtain ⟨h1, h2⟩ := h
    subst h2
    refine ⟨none, by simp [seg], by simp [← h1], by simp, Or.inl ?_⟩
    cases rest with
    | nil => rfl
    | cons d ds =>
      have := hin d rfl
      subst this
      simp [peek] at h0

theorem protocolPhase_inv (n rest : Str) (ctx ctx' : DIDRecord) (hctx : ctx.reference = none)
    (rest' : Str) (h : protocolPhase n ctx rest = .ok (ctx', rest')) :
    (∃ pre, IsDidPrefix pre ∧ rest = pre ++ rest') ∧
      ctx' = { ctx with reference := some (lit "did:" ++ n.drop 4) } := by
  simp only [protocolPhase, hctx] at h
  split at h
  · cases h
  · rename_i hr
    simp only [ne_eq, Decidable.not_not] at hr
    simp only [Except.ok.injEq, Prod.mk.injEq] at h
    obtain ⟨h1, h2⟩ := h
    refine ⟨protocolLoop_inv rest rest' ?_, ?_⟩
    · rw [← hr, ← h2]
    · rw [← h1, hr]

theorem methodPhase_inv (ctx ctx' : DIDRecord) (hctx : ctx.method = none) (rest rest' : Str)
    (h : methodPhase ctx rest = .ok (ctx', rest')) :
    ∃ m, rest = m ++ 58 :: rest' ∧ ctx' = { ctx with method := some m } ∧
      ∀ c ∈ m, isValidMethodCharacter (some c) = true := by
  simp only [methodPhase, hctx] at h
  cases hl : methodLoop [] rest with
  | error e => rw [hl] at h; cases h
  | ok r =>
    obtain ⟨acc, r'⟩ := r
    rw [hl] at h
    obtain ⟨m, cs, e1, e2, e3, e4⟩ := methodLoop_inv _ _ _ _ hl
    subst e2
    simp only [next, List.head?_cons, code_colon, ne_eq, not_true_eq_false, if_false,
      List.tail_cons, Except.ok.injEq, Prod.mk.injEq] at h
    obtain ⟨h1, h2⟩ := h
    subst h2
    simp only [List.nil_append] at e3
    subst e3
    exact ⟨acc, e1, h1.symm, e4⟩

theorem identifierPhase_inv (ctx ctx' : DIDRecord) (hctx : ctx.identifier = none)
    (rest rest' : Str) (h : identifierPhase ctx rest = .ok (ctx', rest')) :
    ∃ id, rest = id ++ rest' ∧ ctx' = { ctx with identifier := some id } ∧
      (∀ c ∈ id, isValidIdentifierCharacter (some c) = true) ∧
      (∀ c, rest'.head? = some c → c = 47 ∨ c = 63 ∨ c = 35) := by
  simp only [identifierPhase, hctx] at h
  cases hl : identifierLoop [] rest with
  | error e => rw [hl] at h; cases h
  | ok r =>
    obtain ⟨acc, r'⟩ := r
    rw [hl] at h
    obtain ⟨id, e1, e2, e3, e4⟩ := identifierLoop_inv _ _ _ _ hl
    simp only [Except.ok.injEq, Prod.mk.injEq] at h
    obtain ⟨h1, h2⟩ := h
    subst h2
    simp only [List.nil_append] at e2
    subst e2
    exact ⟨acc, e1, h1.symm, e3, e4⟩

theorem except_bind_ok {ε α β : Type} (x : Except ε α) (g : α → Except ε β) (b : β)
    (h : x >>= g = .ok b) : ∃ a, x = .ok a ∧ g a = .ok b := by
  cases x with
  | error e => cases h
  | ok a => exact ⟨a, rfl, h⟩

theorem parseBody_inv (n rest : Str) (ctx : DIDRecord)
    (h : parseBody n emptyCtx n = .ok (ctx, rest)) :
    ∃ pre m id p q f t, Shape n pre m id p q f t ∧ ctx = mkRecord n m id p q f ∧
      rest = t.tail := by
  unfold parseBody at h
  obtain ⟨⟨c1, r1⟩, h1, h⟩ := except_bind_ok _ _ _ h
  obtain ⟨⟨c2, r2⟩, h2, h⟩ := except_bind_ok _ _ _ h
  obtain ⟨⟨c3, r3⟩, h3, h⟩ := except_bind_ok _ _ _ h
  obtain ⟨⟨c4, r4⟩, h4, h⟩ := except_bind_ok _ _ _ h
  obtain ⟨⟨c5, r5⟩, h5, h⟩ := except_bind_ok _ _ _ h
  obtain ⟨⟨c6, r6⟩, h6, h⟩ := except_bind_ok _ _ _ h
  simp only [pure, Except.pure, next, Except.ok.injEq, Prod.mk.injEq] at h
  obtain ⟨hc, hr⟩ := h
  obtain ⟨⟨pre, hpre, e1⟩, rfl⟩ := protocolPhase_inv _ _ _ _ rfl _ h1
  obtain ⟨m, e2, rfl, hm⟩ := methodPhase_inv _ _ rfl _ _ h2
  obtain ⟨id, e3, rfl, hid, hs3⟩ := identifierPhase_inv _ _ rfl _ _ h3
  rw [didPhase_of _ m id rfl rfl rfl] at h4
  obtain ⟨p, e4, rfl, hp, hs4⟩ := pathPhase_inv _ _ rfl _ _ hs3 h4
  obtain ⟨q, e5, rfl, hq, hs5⟩ := queryPhase_inv _ _ rfl _ _ hs4 h5
  obtain ⟨f, e6, rfl, hf, hs6⟩ := fragmentPhase_inv _ _ rfl _ _ hs5 h6
  refine ⟨pre, m, id, p, q, f, r6, ⟨?_, hpre, hm, hid, ?_, ?_, hf, hs6⟩, ?_, hr.symm⟩
  · rw [e1, e2, e3, e4, e5, e6]
  · intro s hs
    rw [← e6, ← e5]
    exact hp s hs
  · intro s hs
    rw [← e6]
    exact hq s hs
  · rw [← hc]
    simp [mkRecord, emptyCtx]

/-! ## The outer loop -/

theorem parseBody_settled (uri rest : Str) (ctx : DIDRecord) (h : Settled ctx) :
    parseBody uri ctx rest = .ok (ctx, rest.tail) := by
  obtain ⟨r, d, m, i, p, f, q⟩ := ctx
  obtain ⟨h1, h2, h3, h4, h5, h6, h7⟩ := h
  simp only [ne_eq] at h1 h2 h3 h4 h5 h6
  obtain ⟨r, rfl⟩ := Option.ne_none_iff_exists'.1 h1
  obtain ⟨m, rfl⟩ := Option.ne_none_iff_exists'.1 h2
  obtain ⟨i, rfl⟩ := Option.ne_none_iff_exists'.1 h3
  obtain ⟨p, rfl⟩ := Option.ne_none_iff_exists'.1 h4
  obtain ⟨q, rfl⟩ := Option.ne_none_iff_exists'.1 h5
  obtain ⟨f, rfl⟩ := Option.ne_none_iff_exists'.1 h6
  simp only [parseBody, protocolPhase, methodPhase, identifierPhase, pathPhase, queryPhase,
    fragmentPhase, bind, Except.bind, h7, pure, Except.pure, next]

theorem parseLoop_settled (uri : Str) (ctx : DIDRecord) (h : Settled ctx) (fuel : Nat)
    (rest : Str) (hlen : rest.length ≤ fuel) : parseLoop uri fuel ctx rest = .ok ctx := by
  induction fuel generalizing rest with
  | zero =>
    cases rest with
    | nil => rfl
    | cons c cs => simp at hlen
  | succ k ih =>
    cases rest with
    | nil => rfl
    | cons c cs =>
      simp only [parseLoop, parseBody_settled uri (c :: cs) ctx h, List.tail_cons]
      exact ih cs (by simpa using hlen)

theorem mkRecord_settled (n m id : Str) (p q f : Option Str) :
    Settled (mkRecord n m id p q f) := by
  refine ⟨by simp [mkRecord], by simp [mkRecord], by simp [mkRecord], by simp [mkRecord],
    by simp [mkRecord], by simp [mkRecord], ?_⟩
  by_cases h1 : m = [] <;> by_cases h2 : id = [] <;> simp [didPhase, mkRecord, truthy, h1, h2]

theorem Shape.length_tail {n pre m id : Str} {p q f : Option Str} {t : Str}
    (h : Shape n pre m id p q f t) : t.tail.length + 5 ≤ n.length := by
  obtain ⟨a, b, c, rfl, -⟩ := h.pre_ok
  have := congrArg List.length h.eq
  simp only [List.length_append, List.length_cons, List.length_nil, List.length_tail] at this ⊢
  omega

theorem Shape.ne_nil {n pre m id : Str} {p q f : Option Str} {t : Str}
    (h : Shape n pre m id p q f t) : n ≠ [] := by
  intro hn
  have := h.length_tail
  simp [hn] at this

theorem parseLoop_first (n : Str) (hn : n ≠ []) :
    parseLoop n n.length emptyCtx n =
      match parseBody n emptyCtx n with
      | .error e => .error e
      | .ok (ctx, _) => .ok ctx := by
  cases n with
  | nil => exact absurd rfl hn
  | cons c cs =>
    simp only [List.length_cons, parseLoop]
    cases hb : parseBody (c :: cs) emptyCtx (c :: cs) with
    | error e => rfl
    | ok r =>
      obtain ⟨ctx, rest⟩ := r
      obtain ⟨pre, m, id, p, q, f, t, hs, rfl, rfl⟩ := parseBody_inv _ _ _ hb
      simp only
      apply parseLoop_settled _ _ (mkRecord_settled _ _ _ _ _ _)
      have := hs.length_tail
      simp only [List.length_cons] at this
      omega

/-- The complete description of the inputs on which `parse` returns a record,
and of the record: either the normalized input is empty and the record is the
initial one, or the normalized input has the accepted shape. -/
theorem parseString_ok_iff (s : Str) (r : DIDRecord) :
    parseString s = .ok r ↔
      (normalizeString s = [] ∧ r = emptyCtx) ∨
      ∃ pre m id p q f t, Shape (normalizeString s) pre m id p q f t ∧
        r = mkRecord (normalizeString s) m id p q f := by
  unfold parseString
  constructor
  · intro h
    by_cases hn : normalizeString s = []
    · left
      simp only [hn, List.length_nil, parseLoop, Except.ok.injEq] at h
      exact ⟨hn, h.symm⟩
    · right
      simp only [parseLoop_first _ hn] at h
      cases hb : parseBody (normalizeString s) emptyCtx (normalizeString s) with
      | error e => rw [hb] at h; cases h
      | ok x =>
        obtain ⟨ctx, rest⟩ := x
        rw [hb] at h
        simp only [Except.ok.injEq] at h
        obtain ⟨pre, m, id, p, q, f, t, hs, h1, -⟩ := parseBody_inv _ _ _ hb
        exact ⟨pre, m, id, p, q, f, t, hs, by rw [← h, h1]⟩
  · rintro (⟨hn, rfl⟩ | ⟨pre, m, id, p, q, f, t, hs, rfl⟩)
    · simp [hn, parseLoop]
    · simp only [parseLoop_first _ hs.ne_nil, parseBody_of_shape hs]

/-! ## Errors of parse on a string -/

theorem methodLoop_error (rest acc : Str) (e : JSError) (h : methodLoop acc rest = .error e) :
    e = .syntaxError := by
  induction rest generalizing acc with
  | nil => simp only [methodLoop, Except.error.injEq] at h; exact h.symm
  | cons c cs ih =>
    simp only [methodLoop] at h
    split at h
    · split at h
      · exact ih _ h
      · simp only [Except.error.injEq] at h; exact h.symm
    · cases h

theorem identifierLoop_error (rest acc : Str) (e : JSError)
    (h : identifierLoop acc rest = .error e) : e = .syntaxError := by
  induction rest generalizing acc with
  | nil => cases h
  | cons c cs ih =>
    simp only [identifierLoop] at h
    split at h
    · split at h
      · exact ih _ h
      · simp only [Except.error.injEq] at h; exact h.symm
    · cases h

theorem pathLoop_error (rest acc : Str) (e : JSError) (h : pathLoop acc rest = .error e) :
    e = .syntaxError := by
  induction rest generalizing acc with
  | nil => cases h
  | cons c cs ih =>
    simp only [pathLoop] at h
    split at h
    · split at h
      · exact ih _ h
      · simp only [Except.error.injEq] at h; exact h.symm
    · cases h

theorem queryLoop_error (rest acc : Str) (e : JSError) (h : queryLoop acc rest = .error e) :
    e = .syntaxError := by
  induction rest generalizing acc with
  | nil => cases h
  | cons c cs ih =>
    simp only [queryLoop] at h
    split at h
    · split at h
      · exact ih _ h
      · simp only [Except.error.injEq] at h; exact h.symm
    · cases h

theorem except_bind_error {ε α β : Type} (x : Except ε α) (g : α → Except ε β) (e : ε)
    (h : x >>= g = .error e) : x = .error e ∨ ∃ a, x = .ok a ∧ g a = .error e := by
  cases x with
  | error e' =>
    left
    cases h
    rfl
  | ok a => exact Or.inr ⟨a, rfl, h⟩

theorem protocolPhase_error (n rest : Str) (ctx : DIDRecord) (e : JSError)
    (h : protocolPhase n ctx rest = .error e) : e = .syntaxError := by
  simp only [protocolPhase] at h
  split at h
  · split at h
    · simp only [Except.error.injEq] at h; exact h.symm
    · cases h
  · cases h

theorem methodPhase_error (rest : Str) (ctx : DIDRecord) (e : JSError)
    (h : methodPhase ctx rest = .error e) : e = .syntaxError := by
  simp only [methodPhase] at h
  split at h
  · split at h
    · rename_i hl
      simp only [Except.error.injEq] at h
      subst h
      exact methodLoop_error _ _ _ hl
    · split at h
      · simp only [Except.error.injEq] at h; exact h.symm
      · cases h
  · cases h

theorem identifierPhase_error (rest : Str) (ctx : DIDRecord) (e : JSError)
    (h : identifierPhase ctx rest = .error e) : e = .syntaxError := by
  simp only [identifierPhase] at h
  split at h
  · split at h
    · rename_i hl
      simp only [Except.error.injEq] at h
      subst h
      exact identifierLoop_error _ _ _ hl
    · cases h
  · cases h

theorem pathPhase_error (rest : Str) (ctx : DIDRecord) (e : JSError)
    (h : pathPhase ctx rest = .error e) : e = .syntaxError := by
  simp only [pathPhase] at h
  split at h
  · split at h
    · split at h
      · simp only [Except.error.injEq] at h; exact h.symm
      · split at h
        · rename_i hl
          simp only [Except.error.injEq] at h
          subst h
          exact pathLoop_error _ _ _ hl
        · cases h
    · cases h
  · cases h

theorem queryPhase_error (rest : Str) (ctx : DIDRecord) (e : JSError)
    (h : queryPhase ctx rest = .error e) : e = .syntaxError := by
  simp only [queryPhase] at h
  split at h
  · split at h
    · split at h
      · simp only [Except.error.injEq] at h; exact h.symm
      · split at h
        · rename_i hl
          simp only [Except.error.injEq] at h
          subst h
          exact queryLoop_error _ _ _ hl
        · cases h
    · cases h
  · cases h

theorem fragmentPhase_error (rest : Str) (ctx : DIDRecord) (e : JSError)
    (h : fragmentPhase ctx rest = .error e) : e = .syntaxError := by
  simp only [fragmentPhase, fragmentLoop_eq_queryLoop] at h
  split at h
  · split at h
    · split at h
      · simp only [Except.error.injEq] at h; exact h.symm
      · split at h
        · rename_i hl
          simp only [Except.error.injEq] at h
          subst h
          exact queryLoop_error _ _ _ hl
        · cases h
    · cases h
  · cases h

theorem parseBody_error (n rest : Str) (ctx : DIDRecord) (e : JSError)
    (h : parseBody n ctx rest = .error e) : e = .syntaxError := by
  unfold parseBody at h
  rcases except_bind_error _ _ _ h with h | ⟨⟨c1, r1⟩, -, h⟩
  · exact protocolPhase_error _ _ _ _ h
  rcases except_bind_error _ _ _ h with h | ⟨⟨c2, r2⟩, -, h⟩
  · exact methodPhase_error _ _ _ h
  rcases except_bind_error _ _ _ h with h | ⟨⟨c3, r3⟩, -, h⟩
  · exact identifierPhase_error _ _ _ h
  rcases except_bind_error _ _ _ h with h | ⟨⟨c4, r4⟩, -, h⟩
  · exact pathPhase_error _ _ _ h
  rcases except_bind_error _ _ _ h with h | ⟨⟨c5, r5⟩, -, h⟩
  · exact queryPhase_error _ _ _ h
  rcases except_bind_error _ _ _ h with h | ⟨⟨c6, r6⟩, -, h⟩
  · exact fragmentPhase_error _ _ _ h
  cases h

/-- The only error of `parse` on a string is a `SyntaxError`; in particular
the iteration bound of the outer loop is never reached. -/
theorem parseString_error (s : Str) (e : JSError) (h : parseString s = .error e) :
    e = .syntaxError := by
  unfold parseString at h
  by_cases hn : normalizeString s = []
  · simp [hn, parseLoop] at h
  · rw [parseLoop_first _ hn] at h
    cases hb : parseBody (normalizeString s) emptyCtx (normalizeString s) with
    | error e' =>
      rw [hb] at h
      simp only [Except.error.injEq] at h
      subst h
      exact parseBody_error _ _ _ _ hb
    | ok x => rw [hb] at h; cases h

theorem parseString_ne_loopBound (s : Str) : parseString s ≠ .error .loopBound := by
  intro h
  have := parseString_error s _ h
  cases this

/-! ## normalize on a string -/

theorem trim_of_trimmed (x : Str) (h : Trimmed x) : trim x = x := by
  have h1 : x.dropWhile isWhiteSpace = x := by
    cases x with
    | nil => rfl
    | cons c cs =>
      have := h.1 c rfl
      simp [List.dropWhile, this]
  have h2 : x.rdropWhile isWhiteSpace = x := by
    rw [List.rdropWhile_eq_self_iff]
    intro hl
    have := h.2 (x.getLast hl) (List.getLast?_eq_getLast _ hl)
    simp [this]
  rw [trim, h1, h2]

theorem trim_trimmed (x : Str) : Trimmed (trim x) := by
  constructor
  · intro c hc
    have hpre : trim x <+: x.dropWhile isWhiteSpace := List.rdropWhile_prefix isWhiteSpace _
    obtain ⟨r, hr⟩ := hpre
    have hhead : (x.dropWhile isWhiteSpace).head? = some c := by
      rw [← hr]
      cases ht : trim x with
      | nil => rw [ht] at hc; cases hc
      | cons d ds => rw [ht] at hc; simpa using hc
    have := List.head?_dropWhile_not isWhiteSpace x
    rw [hhead] at this
    simpa using this
  · intro c hc
    have hne : trim x ≠ [] := by
      intro h0
      rw [h0] at hc
      cases hc
    have := List.rdropWhile_last_not isWhiteSpace (x.dropWhile isWhiteSpace) hne
    rw [List.getLast?_eq_getLast _ hne] at hc
    simp only [Option.some.injEq] at hc
    rw [← hc]
    simpa [trim] using this

theorem not_ws_of_newline (c : Nat) (h : isWhiteSpace c = false) : c ≠ 10 ∧ c ≠ 13 := by
  constructor <;> rintro rfl <;> simp [isWhiteSpace] at h

theorem removeNewlines_of_noNewline (x : Str) (h : NoNewline x) : removeNewlines x = x := by
  rw [removeNewlines, List.filter_eq_self]
  intro c hc
  have := h c hc
  simp [this.1, this.2]

theorem removeNewlines_noNewline (x : Str) : NoNewline (removeNewlines x) := by
  intro c hc
  simp only [removeNewlines, List.mem_filter, Bool.not_eq_true', Bool.or_eq_false_iff,
    beq_eq_false_iff_ne, ne_eq] at hc
  exact hc.2

theorem removeNewlines_trimmed (x : Str) (h : Trimmed x) : Trimmed (removeNewlines x) := by
  constructor
  · intro c hc
    cases x with
    | nil => simp [removeNewlines] at hc
    | cons d ds =>
      have hd := h.1 d rfl
      have hn := not_ws_of_newline d hd
      have : removeNewlines (d :: ds) = d :: removeNewlines ds := by
        simp [removeNewlines, List.filter_cons, hn.1, hn.2]
      rw [this] at hc
      simp only [List.head?_cons, Option.some.injEq] at hc
      rw [← hc]
      exact hd
  · intro c hc
    rcases List.eq_nil_or_concat x with rfl | ⟨ds, d, rfl⟩
    · simp [removeNewlines] at hc
    · rw [List.concat_eq_append] at h hc
      have hd := h.2 d (by simp)
      have hn := not_ws_of_newline d hd
      have : removeNewlines (ds ++ [d]) = removeNewlines ds ++ [d] := by
        simp [removeNewlines, List.filter_append, List.filter_cons, hn.1, hn.2]
      rw [this] at hc
      rw [List.getLast?_concat] at hc
      simp only [Option.some.injEq] at hc
      rw [← hc]
      exact hd

theorem replaceScheme_of_prefix (r : Str) : replaceScheme (lit "did://" ++ r) = lit "did:" ++ r := by
  simp [replaceScheme, lit_did_slashes, lit_did]

theorem replaceScheme_of_not_prefix (x : Str) (h : ¬ lit "did://" <+: x) : replaceScheme x = x := by
  simp only [replaceScheme, List.isPrefixOf_iff_prefix]
  rw [if_neg h]

theorem replaceScheme_cases (x : Str) :
    (∃ r, x = lit "did://" ++ r ∧ replaceScheme x = lit "did:" ++ r) ∨
      (¬ lit "did://" <+: x ∧ replaceScheme x = x) := by
  by_cases h : lit "did://" <+: x
  · obtain ⟨r, rfl⟩ := h
    exact Or.inl ⟨r, rfl, replaceScheme_of_prefix r⟩
  · exact Or.inr ⟨h, replaceScheme_of_not_prefix x h⟩

theorem replaceScheme_trimmed (x : Str) (h : Trimmed x) : Trimmed (replaceScheme x) := by
  rcases replaceScheme_cases x with ⟨r, rfl, e⟩ | ⟨-, e⟩
  · rw [e]
    constructor
    · intro c hc
      simp only [lit_did, List.cons_append, List.head?_cons, Option.some.injEq] at hc
      rw [← hc]
      rfl
    · intro c hc
      rcases List.eq_nil_or_concat r with rfl | ⟨ds, d, rfl⟩
      · simp only [lit_did, List.append_nil] at hc
        simp only [List.getLast?, List.getLast, Option.some.injEq] at hc
        rw [← hc]
        rfl
      · apply h.2
        rw [List.concat_eq_append, ← List.append_assoc, List.getLast?_concat] at hc ⊢
        exact hc
  · rw [e]
    exact h

theorem replaceScheme_noNewline (x : Str) (h : NoNewline x) : NoNewline (replaceScheme x) := by
  rcases replaceScheme_cases x with ⟨r, rfl, e⟩ | ⟨-, e⟩
  · rw [e]
    intro c hc
    rcases List.mem_append.1 hc with hc | hc
    · simp only [lit_did, List.mem_cons, List.mem_singleton, List.not_mem_nil, or_false] at hc
      omega
    · exact h c (List.mem_append_right _ hc)
  · rw [e]
    exact h

theorem normalizeString_trimmed (s : Str) : Trimmed (normalizeString s) :=
  replaceScheme_trimmed _ (removeNewlines_trimmed _ (trim_trimmed s))

theorem normalizeString_noNewline (s : Str) : NoNewline (normalizeString s) :=
  replaceScheme_noNewline _ (removeNewlines_noNewline _)

/-- On a trimmed string without newlines `normalize` only rewrites the
scheme. -/
theorem normalizeString_of_trimmed (x : Str) (h1 : Trimmed x) (h2 : NoNewline x) :
    normalizeString x = replaceScheme x := by
  rw [normalizeString, trim_of_trimmed x h1, removeNewlines_of_noNewline x h2]

theorem normalizeString_twice (s : Str) :
    normalizeString (normalizeString s) = replaceScheme (normalizeString s) :=
  normalizeString_of_trimmed _ (normalizeString_trimmed s) (normalizeString_noNewline s)

/-! ## Accepted inputs are printable ASCII -/

theorem query_of_method (c : Nat) (h : isValidMethodCharacter (some c) = true) :
    isValidQueryCharacter (some c) = true := by
  rw [isValidMethodCharacter_iff] at h
  rw [isValidQueryCharacter_iff]
  omega

theorem query_of_identifier (c : Nat) (h : isValidIdentifierCharacter (some c) = true) :
    isValidQueryCharacter (some c) = true := by
  rw [isValidIdentifierCharacter_iff] at h
  rw [isValidQueryCharacter_iff]
  omega

theorem query_of_path (c : Nat) (h : c = 47 ∨ isValidPathCharacter (some c) = true) :
    isValidQueryCharacter (some c) = true := by
  rw [isValidPathCharacter_iff] at h
  rw [isValidQueryCharacter_iff]
  omega

theorem printable_of_query (c : Nat) (h : isValidQueryCharacter (some c) = true) :
    33 ≤ c ∧ c ≤ 126 := by
  rw [isValidQueryCharacter_iff] at h
  omega

theorem mem_seg (d : Nat) (x : Option Str) (c : Nat) (h : c ∈ seg d x) :
    c = d ∨ ∃ s, x = some s ∧ c ∈ s := by
  cases x with
  | none => simp [seg] at h
  | some s =>
    simp only [seg, List.mem_cons] at h
    rcases h with h | h
    · exact Or.inl h
    · exact Or.inr ⟨s, rfl, h⟩

/-- Every unit of an accepted input before the remainder `t` is a printable
ASCII character. -/
theorem Shape.printable {n pre m id : Str} {p q f : Option Str} {t : Str}
    (h : Shape n pre m id p q f t) (c : Nat) (hc : c ∈ n) : (33 ≤ c ∧ c ≤ 126) ∨ c ∈ t := by
  rw [h.eq] at hc
  simp only [List.mem_append, List.mem_cons] at hc
  rcases hc with hc | hc | hc | hc | hc | hc | hc | hc
  · obtain ⟨a, b, d, rfl, ha, hb, hd⟩ := h.pre_ok
    simp only [List.mem_cons, List.mem_singleton, List.not_mem_nil, or_false] at hc
    left
    omega
  · exact Or.inl (printable_of_query c (query_of_method c (h.m_ok c hc)))
  · left; omega
  · exact Or.inl (printable_of_query c (query_of_identifier c (h.id_ok c hc)))
  · rcases mem_seg _ _ _ hc with hc | ⟨s, hs, hc⟩
    · left; omega
    · exact Or.inl (printable_of_query c (query_of_path c ((h.p_ok s hs).1 c hc)))
  · rcases mem_seg _ _ _ hc with hc | ⟨s, hs, hc⟩
    · left; omega
    · exact Or.inl (printable_of_query c ((h.q_ok s hs).1 c hc).1)
  · rcases mem_seg _ _ _ hc with hc | ⟨s, hs, hc⟩
    · left; omega
    · exact Or.inl (printable_of_query c ((h.f_ok s hs).1 c hc).1)
  · exact Or.inr hc

theorem not_ws_of_printable (c : Nat) (h : 33 ≤ c ∧ c ≤ 126) : isWhiteSpace c = false := by
  cases hw : isWhiteSpace c with
  | false => rfl
  | true =>
    rw [isWhiteSpace_iff] at hw
    omega

theorem trimmed_of_printable (x : Str) (h : ∀ c ∈ x, 33 ≤ c ∧ c ≤ 126) : Trimmed x := by
  constructor
  · intro c hc
    exact not_ws_of_printable c (h c (List.mem_of_mem_head? hc))
  · intro c hc
    exact not_ws_of_printable c (h c (List.mem_of_mem_getLast? hc))

theorem noNewline_of_printable (x : Str) (h : ∀ c ∈ x, 33 ≤ c ∧ c ≤ 126) : NoNewline x := by
  intro c hc
  have := h c hc
  omega

/-- An accepted input never begins with `did://`: the unit after the prefix is
a method character or `:`. -/
theorem Shape.not_scheme {n pre m id : Str} {p q f : Option Str} {t : Str}
    (h : Shape n pre m id p q f t) : ¬ lit "did://" <+: n := by
  rintro ⟨r, hr⟩
  obtain ⟨a, b, d, rfl, -⟩ := h.pre_ok
  rw [h.eq] at hr
  cases m with
  | nil =>
    simp only [lit_did_slashes, List.cons_append, List.nil_append, List.cons.injEq] at hr
    omega
  | cons x xs =>
    have := (isValidMethodCharacter_iff x).1 (h.m_ok x (List.mem_cons_self _ _))
    simp only [lit_did_slashes, List.cons_append, List.nil_append, List.cons.injEq] at hr
    omega

/-- An accepted input without remainder is its own normal form. -/
theorem Shape.normalizeString_eq {n pre m id : Str} {p q f : Option Str}
    (h : Shape n pre m id p q f []) : normalizeString n = n := by
  have hp : ∀ c ∈ n, 33 ≤ c ∧ c ≤ 126 := by
    intro c hc
    rcases h.printable c hc with h1 | h1
    · exact h1
    · cases h1
  rw [normalizeString_of_trimmed n (trimmed_of_printable n hp) (noNewline_of_printable n hp),
    replaceScheme_of_not_prefix n h.not_scheme]

/-- A string of the accepted shape without remainder is parsed to the record
of its components. -/
theorem parseString_of_shape {n pre m id : Str} {p q f : Option Str}
    (h : Shape n pre m id p q f []) : parseString n = .ok (mkRecord n m id p q f) := by
  rw [parseString_ok_iff]
  right
  rw [h.normalizeString_eq]
  exact ⟨pre, m, id, p, q, f, [], h, rfl⟩

/-! ## format on a record -/

theorem formatRecord_eq (r : DIDRecord) (d : Str) (hd : r.did = some d) :
    formatRecord r =
      match parseString (assembled d r) with
      | .error e => .error e
      | .ok _ => .ok (assembled d r) := by
  obtain ⟨rf, dd, m, i, p, f, q⟩ := r
  simp only at hd
  subst hd
  have hpart : ∀ (u delim : Str) (x : Option Str),
      (if truthy x then appendTo (some u) (delim ++ x.getD []) else some u) =
        some (u ++ part delim x) := by
    intro u delim x
    cases x with
    | none => simp [truthy, part]
    | some s =>
      by_cases hs : s = []
      · simp [truthy, part, hs]
      · simp [truthy, part, hs, appendTo]
  have h1 := hpart d [] p
  simp only [List.nil_append] at h1
  simp only [formatRecord, assembled, h1, hpart]

theorem formatRecord_ok (r : DIDRecord) (u : Str) (h : formatRecord r = .ok u) :
    ∃ r', parseString u = .ok r' := by
  simp only [formatRecord] at h
  split at h
  · cases h
  · split at h
    · cases h
    · rename_i r' hr
      simp only [Except.ok.injEq] at h
      subst h
      exact ⟨r', hr⟩

theorem format_ok (v : Value) (u : Str) (h : format v = .ok u) :
    ∃ r, parseString u = .ok r := by
  cases v with
  | string s =>
    simp only [format] at h
    split at h
    · cases h
    · exact formatRecord_ok _ _ h
  | object o =>
    simp only [format] at h
    split at h
    · exact formatRecord_ok _ _ h
    · cases h
  | _ => cases h

theorem seg_optOf (d : Nat) (s : Str) : seg d (optOf s) = if s = [] then [] else d :: s := by
  by_cases h : s = [] <;> simp [optOf, seg, h]

theorem getD_optOf (s : Str) : (optOf s).getD [] = s := by
  by_cases h : s = [] <;> simp [optOf, h]

theorem part_seg (d : Nat) (x : Option Str) (hx : x ≠ some []) :
    part [d] (some (x.getD [])) = seg d x := by
  cases x with
  | none => simp [part, seg]
  | some s =>
    have : s ≠ [] := fun h => hx (by rw [h])
    simp [part, seg, this]

theorem part_nil_seg (d : Nat) (x : Option Str) : part [] (some (seg d x)) = seg d x := by
  cases x with
  | none => simp [part, seg]
  | some s => simp [part, seg]

/-- The text `format` assembles from the record of an accepted input whose
present query and fragment are non-empty is the input without its remainder,
with the prefix in lower case. -/
theorem assembled_mkRecord (n m id : Str) (p q f : Option Str) (hq : q ≠ some [])
    (hf : f ≠ some []) :
    assembled (lit "did:" ++ m ++ lit ":" ++ id) (mkRecord n m id p q f) =
      lit "did:" ++ (m ++ 58 :: (id ++ (seg 47 p ++ (seg 63 q ++ (seg 35 f ++ []))))) := by
  simp only [assembled, mkRecord, lit_question, lit_hash, part_seg 63 q hq, part_seg 35 f hf,
    part_nil_seg, lit_colon]
  simp

/-! ## Well-formed DID URIs -/

/-- A string assembled from valid components has the accepted shape. -/
theorem shape_of_components (m id p' : Str) (hasPath : Bool) (q f : Str)
    (hm : ∀ c ∈ m, isValidMethodCharacter (some c) = true)
    (hid : ∀ c ∈ id, isValidIdentifierCharacter (some c) = true)
    (hp : ∀ c ∈ p', c = 47 ∨ isValidPathCharacter (some c) = true)
    (hq : ∀ c ∈ q, isValidQueryCharacter (some c) = true ∧ c ≠ 35)
    (hf : ∀ c ∈ f, isValidQueryCharacter (some c) = true ∧ c ≠ 35)
    (hbare : hasPath = true → p' = [] → q ≠ [] ∨ f ≠ []) :
    Shape (lit "did:" ++ (m ++ 58 :: (id ++ (seg 47 (if hasPath then some p' else none) ++
        (seg 63 (optOf q) ++ (seg 35 (optOf f) ++ []))))))
      (lit "did:") m id (if hasPath then some p' else none) (optOf q) (optOf f) [] := by
  refine ⟨rfl, ⟨100, 105, 100, rfl, by simp, by simp, by simp⟩, hm, hid, ?_, ?_, ?_, Or.inl rfl⟩
  · intro s hs
    cases hasPath with
    | false => simp at hs
    | true =>
      simp only [if_true, Option.some.injEq] at hs
      subst hs
      refine ⟨hp, ?_⟩
      intro h0
      simp only [List.append_eq_nil, List.append_nil] at h0
      obtain ⟨h1, h2, h3⟩ := h0
      rcases hbare rfl h1 with h | h
      · simp [optOf, h, seg] at h2
      · simp [optOf, h, seg] at h3
  · intro s hs
    by_cases h0 : q = []
    · simp [optOf, h0] at hs
    · simp only [optOf, h0, if_false, Option.some.injEq] at hs
      subst hs
      exact ⟨hq, by simp [h0]⟩
  · intro s hs
    by_cases h0 : f = []
    · simp [optOf, h0] at hs
    · simp only [optOf, h0, if_false, Option.some.injEq] at hs
      subst hs
      exact ⟨hf, by simp [h0]⟩

theorem optOf_ne_some_nil (s : Str) : optOf s ≠ some [] := by
  by_cases h : s = []
  · simp [optOf, h]
  · intro h'
    simp only [optOf, h, if_false, Option.some.injEq] at h'

/-- The record of a well-formed DID URI, and the result of formatting it. -/
theorem parse_format_components (m id p : Str) (q f : Str)
    (hm : ∀ c ∈ m, isValidMethodCharacter (some c) = true) (hm0 : m ≠ [])
    (hid : ∀ c ∈ id, isValidIdentifierCharacter (some c) = true) (hid0 : id ≠ [])
    (hp : p = [] ∨ ∃ p', p = 47 :: p' ∧ ∀ c ∈ p', c = 47 ∨ isValidPathCharacter (some c) = true)
    (hq : ∀ c ∈ q, isValidQueryCharacter (some c) = true ∧ c ≠ 35)
    (hf : ∀ c ∈ f, isValidQueryCharacter (some c) = true ∧ c ≠ 35)
    (hbare : p = [47] → q ≠ [] ∨ f ≠ []) (s : Str)
    (hs : s = lit "did:" ++ m ++ lit ":" ++ id ++ p ++ (if q = [] then [] else lit "?" ++ q) ++
      (if f = [] then [] else lit "#" ++ f)) :
    parseString s = .ok
      { reference := some s, did := some (lit "did:" ++ m ++ lit ":" ++ id), method := some m,
        identifier := some id, path := some p, fragment := some f, query := some q } ∧
    formatRecord
      { reference := some s, did := some (lit "did:" ++ m ++ lit ":" ++ id), method := some m,
        identifier := some id, path := some p, fragment := some f, query := some q } = .ok s := by
  obtain ⟨hasPath, p', hp', hpc, hb⟩ : ∃ (hasPath : Bool) (p' : Str),
      p = seg 47 (if hasPath then some p' else none) ∧
      (∀ c ∈ p', c = 47 ∨ isValidPathCharacter (some c) = true) ∧
      (hasPath = true → p' = [] → q ≠ [] ∨ f ≠ []) := by
    rcases hp with rfl | ⟨p', rfl, h⟩
    · exact ⟨false, [], by simp [seg], by simp, by simp⟩
    · refine ⟨true, p', by simp [seg], h, ?_⟩
      intro _ h0
      exact hbare (by rw [h0])
  have hshape := shape_of_components m id p' hasPath q f hm hid hpc hq hf hb
  have hs' : s = lit "did:" ++ (m ++ 58 :: (id ++ (seg 47 (if hasPath then some p' else none) ++
      (seg 63 (optOf q) ++ (seg 35 (optOf f) ++ []))))) := by
    rw [hs, hp', seg_optOf, seg_optOf]
    simp [lit_colon, lit_question, lit_hash]
  rw [← hs'] at hshape
  have hrec : mkRecord s m id (if hasPath then some p' else none) (optOf q) (optOf f) =
      { reference := some s, did := some (lit "did:" ++ m ++ lit ":" ++ id), method := some m,
        identifier := some id, path := some p, fragment := some f, query := some q } := by
    simp only [mkRecord, getD_optOf, ← hp', hm0, hid0, ne_eq, not_false_eq_true, and_self,
      if_true]
    congr 2
    rw [hs']
    simp [lit_did]
  have hparse := parseString_of_shape hshape
  rw [hrec] at hparse
  refine ⟨hparse, ?_⟩
  rw [formatRecord_eq _ _ rfl]
  have hasm : assembled (lit "did:" ++ m ++ lit ":" ++ id)
      { reference := some s, did := some (lit "did:" ++ m ++ lit ":" ++ id), method := some m,
        identifier := some id, path := some p, fragment := some f, query := some q } = s := by
    rw [← hrec, assembled_mkRecord _ _ _ _ _ _ (optOf_ne_some_nil q) (optOf_ne_some_nil f)]
    exact hs'.symm
  rw [hasm, hparse]

/-! ## Round trip through parse and format -/

theorem Shape.prefix_eq {n pre m id : Str} {p q f : Option Str} {t : Str}
    (h : Shape n pre m id p q f t) (hpre : lit "did:" <+: n) : pre = lit "did:" := by
  obtain ⟨r, hr⟩ := hpre
  obtain ⟨a, b, c, rfl, -⟩ := h.pre_ok
  rw [h.eq] at hr
  simp only [lit_did, List.cons_append, List.nil_append, List.cons.injEq] at hr
  obtain ⟨rfl, rfl, rfl, -⟩ := hr
  rfl

theorem Shape.no_remainder {n pre m id : Str} {p q f : Option Str} {t : Str}
    (h : Shape n pre m id p q f t) (hc : n.count 35 ≤ 1) : t = [] := by
  rcases h.t_ok with h0 | ⟨hf, ht⟩
  · exact h0
  · exfalso
    obtain ⟨s, rfl⟩ := Option.ne_none_iff_exists'.1 hf
    obtain ⟨t', rfl⟩ : ∃ t', t = 35 :: t' := by
      cases t with
      | nil => cases ht
      | cons c cs =>
        simp only [List.head?_cons, Option.some.injEq] at ht
        exact ⟨cs, by rw [ht]⟩
    have := congrArg (List.count 35) h.eq
    simp only [List.count_append, List.count_cons, seg, beq_self_eq_true, if_true] at this
    omega

theorem Shape.question_not_mem {n pre m id : Str} {p q f : Option Str} {t : Str}
    (h : Shape n pre m id p q f t) : 63 ∉ pre ++ (m ++ 58 :: (id ++ seg 47 p)) := by
  intro hc
  simp only [List.mem_append, List.mem_cons] at hc
  rcases hc with hc | hc | hc | hc | hc
  · obtain ⟨a, b, d, rfl, ha, hb, hd⟩ := h.pre_ok
    simp only [List.mem_cons, List.mem_singleton, List.not_mem_nil, or_false] at hc
    omega
  · have := (isValidMethodCharacter_iff 63).1 (h.m_ok 63 hc)
    omega
  · omega
  · have := (isValidIdentifierCharacter_iff 63).1 (h.id_ok 63 hc)
    omega
  · rcases mem_seg _ _ _ hc with hc | ⟨s, hs, hc⟩
    · omega
    · rcases (h.p_ok s hs).1 63 hc with h1 | h1
      · omega
      · have := (isValidPathCharacter_iff 63).1 h1
        omega

/-- For an accepted input without remainder, in lower-case `did:` form, with
non-empty method and identifier and no empty query or fragment after a
delimiter, formatting the parsed record gives back the input. -/
theorem formatRecord_mkRecord {n m id : Str} {p q f : Option Str}
    (h : Shape n (lit "did:") m id p q f []) (hm : m ≠ []) (hi : id ≠ [])
    (hq : q ≠ some []) (hf : f ≠ some []) :
    formatRecord (mkRecord n m id p q f) = .ok n := by
  have hd : (mkRecord n m id p q f).did = some (lit "did:" ++ m ++ lit ":" ++ id) := by
    simp [mkRecord, hm, hi]
  rw [formatRecord_eq _ _ hd, assembled_mkRecord n m id p q f hq hf, ← h.eq,
    parseString_of_shape h]

theorem Shape.hash_not_mem {n pre m id : Str} {p q f : Option Str} {t : Str}
    (h : Shape n pre m id p q f t) :
    35 ∉ pre ++ (m ++ 58 :: (id ++ (seg 47 p ++ seg 63 q))) := by
  intro hc
  simp only [List.mem_append, List.mem_cons] at hc
  rcases hc with hc | hc | hc | hc | hc | hc
  · obtain ⟨a, b, d, rfl, ha, hb, hd⟩ := h.pre_ok
    simp only [List.mem_cons, List.mem_singleton, List.not_mem_nil, or_false] at hc
    omega
  · have := (isValidMethodCharacter_iff 35).1 (h.m_ok 35 hc)
    omega
  · omega
  · have := (isValidIdentifierCharacter_iff 35).1 (h.id_ok 35 hc)
    omega
  · rcases mem_seg _ _ _ hc with hc | ⟨s, hs, hc⟩
    · omega
    · rcases (h.p_ok s hs).1 35 hc with h1 | h1
      · omega
      · have := (isValidPathCharacter_iff 35).1 h1
        omega
  · rcases mem_seg _ _ _ hc with hc | ⟨s, hs, hc⟩
    · omega
    · exact ((h.q_ok s hs).1 35 hc).2 rfl

theorem formatRecord_ok_eq (r : DIDRecord) (d u : Str) (hd : r.did = some d)
    (h : formatRecord r = .ok u) : assembled d r = u := by
  rw [formatRecord_eq r d hd] at h
  split at h
  · cases h
  · simp only [Except.ok.injEq] at h
    exact h

/-- If formatting the record of an accepted input gives back the input, the
prefix is in lower case, nothing follows the fragment, and no delimiter is
followed by an empty query or fragment. -/
theorem Shape.of_assembled {n pre m id : Str} {p q f : Option Str} {t : Str}
    (h : Shape n pre m id p q f t)
    (he : assembled (lit "did:" ++ m ++ lit ":" ++ id) (mkRecord n m id p q f) = n) :
    pre = lit "did:" ∧ q ≠ some [] ∧ f ≠ some [] ∧ t = [] := by
  obtain ⟨a, b, c, rfl, -⟩ := h.pre_ok
  have e := h.eq
  rw [← he] at e
  simp only [assembled, mkRecord, part_nil_seg, lit_did, lit_colon, lit_question, lit_hash,
    List.cons_append, List.nil_append, List.append_assoc, List.cons.injEq,
    List.append_cancel_left_eq, true_and] at e
  obtain ⟨rfl, rfl, rfl, e⟩ := e
  refine ⟨rfl, ?_⟩
  cases q with
  | none =>
    cases f with
    | none =>
      simp only [part, seg, Option.getD_none, if_true, List.nil_append] at e
      exact ⟨by simp, by simp, e.symm⟩
    | some f' =>
      cases f' with
      | nil => simp [part, seg] at e
      | cons x xs =>
        simp only [part, seg, Option.getD_none, Option.getD_some, if_true, List.nil_append,
          reduceCtorEq, if_false, List.cons_append, List.cons.injEq, true_and] at e
        have := @List.append_cancel_left Nat (x :: xs) [] t (by simpa using e)
        exact ⟨by simp, by simp, this.symm⟩
  | some q' =>
    cases q' with
    | nil =>
      exfalso
      cases f with
      | none => simp [part, seg] at e
      | some f' =>
        cases f' with
        | nil => simp [part, seg] at e
        | cons x xs => simp [part, seg] at e
    | cons y ys =>
      cases f with
      | none =>
        simp only [part, seg, Option.getD_none, Option.getD_some, if_true, reduceCtorEq,
          if_false, List.nil_append, List.append_nil, List.cons_append, List.cons.injEq,
          true_and] at e
        have := @List.append_cancel_left Nat (ys) [] t (by simpa using e)
        exact ⟨by simp, by simp, this.symm⟩
      | some f' =>
        cases f' with
        | nil => simp [part, seg] at e
        | cons x xs =>
          simp only [part, seg, Option.getD_some, reduceCtorEq, if_false, List.nil_append,
            List.cons_append, List.cons.injEq, true_and, List.append_assoc,
            List.append_cancel_left_eq] at e
          have := @List.append_cancel_left Nat (xs) [] t (by simpa using e)
          exact ⟨by simp, by simp, this.symm⟩

theorem Shape.count_hash {n pre m id : Str} {p q f : Option Str}
    (h : Shape n pre m id p q f []) : n.count 35 ≤ 1 := by
  have e : n = (pre ++ (m ++ 58 :: (id ++ (seg 47 p ++ seg 63 q)))) ++ seg 35 f := by
    rw [h.eq]
    simp
  rw [e, List.count_append, List.count_eq_zero_of_not_mem h.hash_not_mem]
  cases f with
  | none => simp [seg]
  | some s =>
    have hs : 35 ∉ s := fun hc => ((h.f_ok s rfl).1 35 hc).2 rfl
    simp [seg, List.count_cons, List.count_eq_zero_of_not_mem hs]

theorem head_drop_dropWhile_ne (P : Nat → Bool) (L : Str) (x : Nat) (hx : x ∉ L) :
    ((L.dropWhile P).drop 1).head? ≠ some x := by
  intro hc
  have h1 := List.mem_of_mem_head? hc
  have h2 := List.mem_of_mem_drop h1
  exact hx (List.dropWhile_subset P h2)

theorem Shape.first_question {n pre m id : Str} {p q f : Option Str}
    (h : Shape n pre m id p q f []) (hq : q ≠ some []) :
    ((n.dropWhile (fun c => c != 63)).drop 1).head? ≠ some 35 := by
  have hB : ∀ c ∈ pre ++ (m ++ 58 :: (id ++ seg 47 p)), (c != 63) = true := by
    intro c hc
    simp only [bne_iff_ne, ne_eq]
    rintro rfl
    exact h.question_not_mem hc
  have e : n = (pre ++ (m ++ 58 :: (id ++ seg 47 p))) ++ (seg 63 q ++ seg 35 f) := by
    rw [h.eq]
    simp
  rw [e, List.dropWhile_append_of_pos hB]
  cases q with
  | none =>
    cases f with
    | none => simp [seg]
    | some s =>
      have hs : 35 ∉ s := fun hc => ((h.f_ok s rfl).1 35 hc).2 rfl
      have : (seg 63 none ++ seg 35 (some s)).dropWhile (fun c => c != 63) =
          s.dropWhile (fun c => c != 63) := by
        simp [seg, List.dropWhile]
      rw [this]
      exact head_drop_dropWhile_ne _ s 35 hs
  | some s =>
    cases s with
    | nil => exact absurd rfl hq
    | cons y ys =>
      have hy := ((h.q_ok _ rfl).1 y (List.mem_cons_self _ _)).2
      have : ((seg 63 (some (y :: ys)) ++ seg 35 f).dropWhile (fun c => c != 63)).drop 1 =
          y :: (ys ++ seg 35 f) := by
        simp [seg, List.dropWhile]
      rw [this]
      simp only [List.head?_cons, ne_eq, Option.some.injEq]
      exact hy

/-! ## The claims -/

/-- C4, as stated, fails: `normalize` maps `did:////x` to `did://x`, and maps
that result to the different string `did:x`. -/
theorem normalize_not_idempotent :
    normalize (.string (lit "did:////x")) = .ok (lit "did://x") ∧
      normalize (.string (lit "did://x")) = .ok (lit "did:x") ∧
      lit "did:x" ≠ lit "did://x" := by
  refine ⟨rfl, rfl, by decide⟩

/-- C4, amended: `normalize` returns a string `u` for every string `s`, and
normalizing `u` again returns `u` exactly when `u` does not begin with
`did://`. -/
theorem normalize_idempotent_iff (s : Str) :
    ∃ u, normalize (.string s) = .ok u ∧
      (normalize (.string u) = .ok u ↔ ¬ lit "did://" <+: u) := by
  refine ⟨normalizeString s, rfl, ?_⟩
  simp only [normalize, Except.ok.injEq, normalizeString_twice]
  constructor
  · rintro h ⟨r, hr⟩
    rw [← hr, replaceScheme_of_prefix] at h
    have := congrArg List.length h
    simp [lit_did, lit_did_slashes] at this
  · exact replaceScheme_of_not_prefix _

/-- C6: for whitespace-only `a` and `b` and a string `t` without line feed and
carriage return that does not end with whitespace, `normalize` maps
`a + "did://" + t + b` to `"did:" + t`; in particular it maps
`did://method:identifier` to `did:method:identifier`. -/
theorem normalize_scheme (a b t : Str) (ha : ∀ c ∈ a, isWhiteSpace c = true)
    (hb : ∀ c ∈ b, isWhiteSpace c = true) (ht : ∀ c ∈ t, c ≠ code '\n' ∧ c ≠ code '\r')
    (hl : ∀ c, t.getLast? = some c → isWhiteSpace c = false) :
    normalize (.string (a ++ lit "did://" ++ t ++ b)) = .ok (lit "did:" ++ t) ∧
      normalize (.string (lit "did://method:identifier")) =
        .ok (lit "did:method:identifier") := by
  refine ⟨?_, rfl⟩
  have hx : Trimmed (lit "did://" ++ t) := by
    constructor
    · intro c hc
      simp only [lit_did_slashes, List.cons_append, List.head?_cons, Option.some.injEq] at hc
      rw [← hc]
      rfl
    · intro c hc
      rcases List.eq_nil_or_concat t with rfl | ⟨ds, d, rfl⟩
      · simp only [lit_did_slashes, List.append_nil, List.getLast?, List.getLast,
          Option.some.injEq] at hc
        rw [← hc]
        rfl
      · apply hl
        rw [List.concat_eq_append, ← List.append_assoc, List.getLast?_concat] at hc
        rw [List.concat_eq_append, List.getLast?_concat]
        exact hc
  have h1 : trim (a ++ lit "did://" ++ t ++ b) = lit "did://" ++ t := by
    have e1 : (a ++ lit "did://" ++ t ++ b).dropWhile isWhiteSpace = lit "did://" ++ t ++ b := by
      rw [List.append_assoc, List.append_assoc, List.dropWhile_append_of_pos ha,
        List.append_assoc]
      rfl
    have e2 : (lit "did://" ++ t ++ b).rdropWhile isWhiteSpace =
        (lit "did://" ++ t).rdropWhile isWhiteSpace := by
      simp only [List.rdropWhile, List.reverse_append (lit "did://" ++ t) b]
      rw [List.dropWhile_append_of_pos (fun c hc => hb c (List.mem_reverse.1 hc))]
    have e3 : (lit "did://" ++ t).rdropWhile isWhiteSpace = lit "did://" ++ t := by
      have := trim_of_trimmed _ hx
      rw [trim] at this
      have e4 : (lit "did://" ++ t).dropWhile isWhiteSpace = lit "did://" ++ t := by
        rfl
      rw [e4] at this
      exact this
    rw [trim, e1, e2, e3]
  have h2 : removeNewlines (lit "did://" ++ t) = lit "did://" ++ t := by
    apply removeNewlines_of_noNewline
    intro c hc
    rcases List.mem_append.1 hc with hc | hc
    · simp only [lit_did_slashes, List.mem_cons, List.mem_singleton, List.not_mem_nil,
        or_false] at hc
      omega
    · exact ht c hc
  simp only [normalize, normalizeString, h1, h2, replaceScheme_of_prefix]

/-- Witness for C6: the padded input of the repository's test. -/
theorem normalize_scheme_witness :
    normalize (.string (lit "   " ++ lit "did://" ++ lit "method:identifier" ++ lit "\n")) =
        .ok (lit "did:" ++ lit "method:identifier") ∧
      normalize (.string (lit "did://method:identifier")) =
        .ok (lit "did:method:identifier") :=
  normalize_scheme (lit "   ") (lit "\n") (lit "method:identifier") (by decide) (by decide)
    (by decide) (by decide)

/-- C7: on every value that is neither a string nor a non-array object
(`undefined`, `null`, booleans, numbers, arrays, and also bigints, symbols and
functions) `parse`, `normalize` and `format` each fail with a `TypeError`. -/
theorem type_errors (v : Value) (hs : ∀ s, v ≠ .string s) (ho : ∀ o, v ≠ .object o) :
    parse v = .error .typeError ∧ normalize v = .error .typeError ∧
      format v = .error .typeError := by
  cases v with
  | string s => exact absurd rfl (hs s)
  | object o => exact absurd rfl (ho o)
  | _ => exact ⟨rfl, rfl, rfl⟩

/-- Witness for C7: the value `undefined`. -/
theorem type_errors_witness :
    parse .undefined = .error .typeError ∧ normalize .undefined = .error .typeError ∧
      format .undefined = .error .typeError :=
  type_errors .undefined (by intro s h; cases h) (by intro o h; cases h)

/-- C8: for a record `r` whose `did` is a non-empty string `d`, with `u` the
text assembled from `did`, `path`, `query` and `fragment`, `format(r)` returns
`u` when `parse(u)` succeeds and fails with the error of `parse(u)` otherwise;
and every string `format` returns, on any value, is accepted by `parse`. -/
theorem format_output (r : DIDRecord) (d : Str) (hd : r.did = some d) (hne : d ≠ []) :
    (format (.object r) =
      match parse (.string (assembled d r)) with
      | .error e => .error e
      | .ok _ => .ok (assembled d r)) ∧
    ∀ (v : Value) (u : Str), format v = .ok u → ∃ r', parse (.string u) = .ok r' := by
  constructor
  · have ht : truthy r.did = true := by
      cases d with
      | nil => exact absurd rfl hne
      | cons c cs => simp [hd, truthy]
    simp only [format, ht, if_true, parse]
    exact formatRecord_eq r d hd
  · intro v u h
    exact format_ok v u h

/-- Witness for C8: the record with `did = "did:m:id"`, `path = "/p"`, an empty
query and `fragment = "f"`. -/
theorem format_output_witness :
    (format (.object ⟨none, some (lit "did:m:id"), none, none, some (lit "/p"),
        some (lit "f"), some []⟩) =
      match parse (.string (assembled (lit "did:m:id") ⟨none, some (lit "did:m:id"), none,
        none, some (lit "/p"), some (lit "f"), some []⟩)) with
      | .error e => .error e
      | .ok _ => .ok (assembled (lit "did:m:id") ⟨none, some (lit "did:m:id"), none, none,
        some (lit "/p"), some (lit "f"), some []⟩)) ∧
    ∀ (v : Value) (u : Str), format v = .ok u → ∃ r', parse (.string u) = .ok r' :=
  format_output _ (lit "did:m:id") rfl (by decide)

/-- C5, as stated, fails: the empty string has an empty normalized form, which
does not begin with `did:`, yet `parse` returns a record instead of failing. -/
theorem parse_empty_no_error :
    normalize (.string (lit "")) = .ok [] ∧ parse (.string (lit "")) = .ok emptyCtx :=
  ⟨rfl, rfl⟩

/-- C5, amended: for every string whose normalized form is not empty and does
not begin with four units that lower-case to `did:`, `parse` fails with a
`SyntaxError`. -/
theorem parse_protocol_required (s n : Str) (hn : normalize (.string s) = .ok n)
    (hne : n ≠ []) (hp : ¬ ∃ pre rest, IsDidPrefix pre ∧ n = pre ++ rest) :
    parse (.string s) = .error .syntaxError := by
  simp only [normalize, Except.ok.injEq] at hn
  subst hn
  simp only [parse]
  cases h : parseString s with
  | error e => rw [parseString_error s e h]
  | ok r =>
    rcases (parseString_ok_iff s r).1 h with ⟨h0, -⟩ | ⟨pre, m, id, p, q, f, t, hs, -⟩
    · exact absurd h0 hne
    · exact absurd ⟨pre, _, hs.pre_ok, hs.eq⟩ hp

/-- Witness for C5: the input `http://x`, whose normalized form is itself. -/
theorem parse_protocol_required_witness :
    normalize (.string (lit "http://x")) = .ok (lit "http://x") ∧
      parse (.string (lit "http://x")) = .error .syntaxError :=
  ⟨rfl, parse_protocol_required (lit "http://x") (lit "http://x") rfl (by decide) (by
    rintro ⟨pre, rest, ⟨a, b, c, rfl, ha, hb, hc⟩, h⟩
    simp only [lit, code, List.map, String.toList, List.cons_append, List.nil_append,
      List.cons.injEq] at h
    obtain ⟨rfl, -⟩ := h
    revert ha
    decide)⟩

/-- C9, as stated, fails: on a whitespace-only input `parse` returns the
initial record, whose `path`, `query` and `fragment` are `null`. -/
theorem parse_blank_null_fields :
    ∃ r, parse (.string (lit " ")) = .ok r ∧ r.path = none ∧ r.query = none ∧
      r.fragment = none :=
  ⟨emptyCtx, rfl, rfl, rfl, rfl⟩

/-- C9, amended: for every string whose normalized form is not empty and on
which `parse` returns a record, `path`, `query` and `fragment` of the record
are strings (not `null`). -/
theorem parse_fields_non_null (s n : Str) (r : DIDRecord)
    (hn : normalize (.string s) = .ok n) (hne : n ≠ []) (h : parse (.string s) = .ok r) :
    (∃ p, r.path = some p) ∧ (∃ q, r.query = some q) ∧ (∃ f, r.fragment = some f) := by
  simp only [normalize, Except.ok.injEq] at hn
  subst hn
  rcases (parseString_ok_iff s r).1 h with ⟨h0, -⟩ | ⟨pre, m, id, p, q, f, t, -, rfl⟩
  · exact absurd h0 hne
  · exact ⟨⟨_, rfl⟩, ⟨_, rfl⟩, ⟨_, rfl⟩⟩

/-- Witness for C9: the input `did:m:id`, whose normalized form is itself. -/
theorem parse_fields_non_null_witness :
    normalize (.string (lit "did:m:id")) = .ok (lit "did:m:id") ∧
      parse (.string (lit "did:m:id")) = .ok sampleRecord ∧
      (∃ p, sampleRecord.path = some p) ∧ (∃ q, sampleRecord.query = some q) ∧
      (∃ f, sampleRecord.fragment = some f) :=
  ⟨rfl, rfl,
    parse_fields_non_null (lit "did:m:id") (lit "did:m:id") sampleRecord rfl (by decide) rfl⟩

/-- C10: in every record `parse` returns for a string, `did` is non-null
exactly when `method` and `identifier` are non-empty strings, and a non-null
`did` equals `"did:" + method + ":" + identifier`. -/
theorem parse_did_invariant (s : Str) (r : DIDRecord) (h : parse (.string s) = .ok r) :
    (r.did ≠ none ↔
      (∃ m, r.method = some m ∧ m ≠ []) ∧ (∃ i, r.identifier = some i ∧ i ≠ [])) ∧
    ∀ d, r.did = some d →
      ∃ m i, r.method = some m ∧ r.identifier = some i ∧ d = lit "did:" ++ m ++ lit ":" ++ i := by
  rcases (parseString_ok_iff s r).1 h with ⟨-, rfl⟩ | ⟨pre, m, id, p, q, f, t, -, rfl⟩
  · simp [emptyCtx]
  · by_cases hm : m = [] <;> by_cases hi : id = [] <;> simp [mkRecord, hm, hi]

/-- Witness for C10: the input `did:m:id`. -/
theorem parse_did_invariant_witness :
    parse (.string (lit "did:m:id")) = .ok sampleRecord ∧
      (sampleRecord.did ≠ none ↔
        (∃ m, sampleRecord.method = some m ∧ m ≠ []) ∧
          (∃ i, sampleRecord.identifier = some i ∧ i ≠ [])) ∧
      ∀ d, sampleRecord.did = some d →
        ∃ m i, sampleRecord.method = some m ∧ sampleRecord.identifier = some i ∧
          d = lit "did:" ++ m ++ lit ":" ++ i :=
  ⟨rfl, parse_did_invariant (lit "did:m:id") sampleRecord rfl⟩

/-- C2: `parse` recovers the components of a well-formed DID URI: a non-empty
method over `[a-z0-9]`, a non-empty identifier over letters, digits, `.`, `-`
and `:`, a path that is empty or `/` followed by `/` and path characters, a
query and a fragment of query characters other than `#`, where the path is not
the bare `/` unless a query or fragment follows. -/
theorem parse_wellformed (m id p q f : Str)
    (hm : m ≠ [] ∧ ∀ c ∈ m, (97 ≤ c ∧ c ≤ 122) ∨ (48 ≤ c ∧ c ≤ 57))
    (hid : id ≠ [] ∧ ∀ c ∈ id, (65 ≤ c ∧ c ≤ 90) ∨ (97 ≤ c ∧ c ≤ 122) ∨ (48 ≤ c ∧ c ≤ 57) ∨
      c = code '.' ∨ c = code '-' ∨ c = code ':')
    (hp : p = [] ∨ ∃ p', p = code '/' :: p' ∧
      ∀ c ∈ p', c = code '/' ∨ isValidPathCharacter (some c) = true)
    (hq : ∀ c ∈ q, isValidQueryCharacter (some c) = true ∧ c ≠ code '#')
    (hf : ∀ c ∈ f, isValidQueryCharacter (some c) = true ∧ c ≠ code '#')
    (hbare : p = lit "/" → q ≠ [] ∨ f ≠ []) :
    parse (.string (lit "did:" ++ m ++ lit ":" ++ id ++ p ++
        (if q = [] then [] else lit "?" ++ q) ++ (if f = [] then [] else lit "#" ++ f))) =
      .ok { reference := some (lit "did:" ++ m ++ lit ":" ++ id ++ p ++
              (if q = [] then [] else lit "?" ++ q) ++ (if f = [] then [] else lit "#" ++ f)),
            did := some (lit "did:" ++ m ++ lit ":" ++ id),
            method := some m, identifier := some id, path := some p, fragment := some f,
            query := some q } := by
  have hm' : ∀ c ∈ m, isValidMethodCharacter (some c) = true := by
    intro c hc
    rw [isValidMethodCharacter_iff]
    have := hm.2 c hc
    omega
  have hid' : ∀ c ∈ id, isValidIdentifierCharacter (some c) = true := by
    intro c hc
    rw [isValidIdentifierCharacter_iff]
    have := hid.2 c hc
    have e1 : code '.' = 46 := rfl
    have e2 : code '-' = 45 := rfl
    rw [e1, e2, code_colon] at this
    omega
  exact (parse_format_components m id p q f hm' hm.1 hid' hid.1 hp hq hf hbare _ rfl).1

/-- Witness for C2: the composite URI of the repository's tests. -/
theorem parse_wellformed_witness :
    parse (.string (lit "did:method:identifier/path/to/this?thing=that#fragment=hash")) =
      .ok { reference := some (lit "did:method:identifier/path/to/this?thing=that#fragment=hash"),
            did := some (lit "did:method:identifier"),
            method := some (lit "method"), identifier := some (lit "identifier"),
            path := some (lit "/path/to/this"), fragment := some (lit "fragment=hash"),
            query := some (lit "thing=that") } :=
  parse_wellformed (lit "method") (lit "identifier") (lit "/path/to/this") (lit "thing=that")
    (lit "fragment=hash") (by decide) (by decide)
    (Or.inr ⟨lit "path/to/this", rfl, by decide⟩) (by decide) (by decide) (by decide)

/-- C3: `format` is the identity on a well-formed DID URI with a non-empty
method, identifier, path content, query and fragment, whether it is given the
string or the record `parse` returns for it. -/
theorem format_wellformed (m id p q f : Str)
    (hm : m ≠ [] ∧ ∀ c ∈ m, (97 ≤ c ∧ c ≤ 122) ∨ (48 ≤ c ∧ c ≤ 57))
    (hid : id ≠ [] ∧ ∀ c ∈ id, isValidIdentifierCharacter (some c) = true)
    (hp : ∃ p', p = code '/' :: p' ∧ p' ≠ [] ∧
      ∀ c ∈ p', c = code '/' ∨ isValidPathCharacter (some c) = true)
    (hq : q ≠ [] ∧ ∀ c ∈ q, isValidQueryCharacter (some c) = true ∧ c ≠ code '#')
    (hf : f ≠ [] ∧ ∀ c ∈ f, isValidQueryCharacter (some c) = true ∧ c ≠ code '#') :
    format (.string (lit "did:" ++ m ++ lit ":" ++ id ++ p ++ lit "?" ++ q ++ lit "#" ++ f)) =
        .ok (lit "did:" ++ m ++ lit ":" ++ id ++ p ++ lit "?" ++ q ++ lit "#" ++ f) ∧
      ∃ r, parse (.string (lit "did:" ++ m ++ lit ":" ++ id ++ p ++ lit "?" ++ q ++ lit "#" ++ f)) =
          .ok r ∧
        format (.object r) =
          .ok (lit "did:" ++ m ++ lit ":" ++ id ++ p ++ lit "?" ++ q ++ lit "#" ++ f) := by
  have hm' : ∀ c ∈ m, isValidMethodCharacter (some c) = true := by
    intro c hc
    rw [isValidMethodCharacter_iff]
    have := hm.2 c hc
    omega
  obtain ⟨p', hp1, hp2, hp3⟩ := hp
  have hs : lit "did:" ++ m ++ lit ":" ++ id ++ p ++ lit "?" ++ q ++ lit "#" ++ f =
      lit "did:" ++ m ++ lit ":" ++ id ++ p ++ (if q = [] then [] else lit "?" ++ q) ++
        (if f = [] then [] else lit "#" ++ f) := by
    simp [hq.1, hf.1]
  obtain ⟨h1, h2⟩ := parse_format_components m id p q f hm' hm.1 hid.2 hid.1
    (Or.inr ⟨p', hp1, hp3⟩) hq.2 hf.2 (fun _ => Or.inl hq.1) _ hs
  refine ⟨?_, _, h1, ?_⟩
  · simp only [format, h1, h2]
  · have ht : truthy (some (lit "did:" ++ m ++ lit ":" ++ id)) = true := by
      simp [truthy, lit_did]
    simp only [format, ht, if_true]
    exact h2

/-- Witness for C3: the URI of the repository's `format` test. -/
theorem format_wellformed_witness :
    format (.string (lit "did:" ++ lit "method" ++ lit ":" ++ lit "identifier" ++
        lit "/path/to/this" ++ lit "?" ++ lit "thing=that" ++ lit "#" ++ lit "fragment=hash")) =
        .ok (lit "did:" ++ lit "method" ++ lit ":" ++ lit "identifier" ++
          lit "/path/to/this" ++ lit "?" ++ lit "thing=that" ++ lit "#" ++ lit "fragment=hash") ∧
      ∃ r, parse (.string (lit "did:" ++ lit "method" ++ lit ":" ++ lit "identifier" ++
          lit "/path/to/this" ++ lit "?" ++ lit "thing=that" ++ lit "#" ++ lit "fragment=hash")) =
          .ok r ∧
        format (.object r) =
          .ok (lit "did:" ++ lit "method" ++ lit ":" ++ lit "identifier" ++
            lit "/path/to/this" ++ lit "?" ++ lit "thing=that" ++ lit "#" ++ lit "fragment=hash") :=
  format_wellformed (lit "method") (lit "identifier") (lit "/path/to/this") (lit "thing=that")
    (lit "fragment=hash") (by decide) (by decide)
    ⟨lit "path/to/this", rfl, by decide, by decide⟩ (by decide) (by decide)

/-- C1, as stated, fails: `parse` accepts `did:m:id#a#b`, whose normalized form
is the input itself, but formatting the parsed record returns `did:m:id#a`. -/
theorem roundtrip_fails :
    ∃ r, parse (.string (lit "did:m:id#a#b")) = .ok r ∧
      format (.object r) = .ok (lit "did:m:id#a") ∧
      normalize (.string (lit "did:m:id#a#b")) = .ok (lit "did:m:id#a#b") ∧
      lit "did:m:id#a" ≠ lit "did:m:id#a#b" :=
  ⟨_, rfl, rfl, rfl, by decide⟩

/-- C1, amended: when `parse` returns a record for a string `s` with
normalized form `n`, formatting the record returns `n` if and only if the
record has a non-null `did`, `n` begins with the lower-case `did:`, contains at
most one `#`, and its first `?` is not directly followed by `#`. -/
theorem format_parse_roundtrip (s n : Str) (r : DIDRecord)
    (hn : normalize (.string s) = .ok n) (h : parse (.string s) = .ok r) :
    format (.object r) = .ok n ↔
      (r.did ≠ none ∧ lit "did:" <+: n ∧ n.count (code '#') ≤ 1 ∧
        ((n.dropWhile (fun c => c != code '?')).drop 1).head? ≠ some (code '#')) := by
  simp only [normalize, Except.ok.injEq] at hn
  subst hn
  rw [code_hash, code_question]
  rcases (parseString_ok_iff s r).1 h with ⟨-, rfl⟩ | ⟨pre, m, id, p, q, f, t, hs, rfl⟩
  · simp [format, emptyCtx, truthy]
  · by_cases hm : m ≠ [] ∧ id ≠ []
    · have hd : (mkRecord (normalizeString s) m id p q f).did =
          some (lit "did:" ++ m ++ lit ":" ++ id) := by
        simp [mkRecord, hm.1, hm.2]
      have ht : truthy (mkRecord (normalizeString s) m id p q f).did = true := by
        simp [hd, truthy, lit_did]
      simp only [format, ht, if_true]
      constructor
      · intro hf
        have he := formatRecord_ok_eq _ _ _ hd hf
        obtain ⟨rfl, hq, hf', rfl⟩ := hs.of_assembled he
        refine ⟨by simp [hd], ⟨_, hs.eq.symm⟩, hs.count_hash, hs.first_question hq⟩
      · rintro ⟨-, hpre, hhash, hq⟩
        have ht := hs.no_remainder hhash
        subst ht
        have hp := hs.prefix_eq hpre
        subst hp
        have hf : f ≠ some [] := by
          rintro rfl
          exact (hs.f_ok [] rfl).2 rfl
        have hq' : q ≠ some [] := by
          rintro rfl
          have hne := (hs.q_ok [] rfl).2
          cases f with
          | none => exact hne rfl
          | some f' =>
            apply hq
            have hA : ∀ c ∈ lit "did:" ++ (m ++ 58 :: (id ++ seg 47 p)), (c != 63) = true := by
              intro c hc
              have := hs.question_not_mem
              simp only [bne_iff_ne, ne_eq]
              rintro rfl
              exact this hc
            have e : normalizeString s =
                (lit "did:" ++ (m ++ 58 :: (id ++ seg 47 p))) ++ 63 :: 35 :: f' := by
              rw [hs.eq]
              simp [seg]
            rw [e, List.dropWhile_append_of_pos hA]
            rfl
        exact formatRecord_mkRecord hs hm.1 hm.2 hq' hf
    · have hd : (mkRecord (normalizeString s) m id p q f).did = none := by
        simp only [mkRecord]
        rw [if_neg hm]
      simp [format, hd, truthy]

/-- Witness for C1: the composite URI of the repository's tests satisfies the
four conditions and is returned by `format` after `parse`. -/
theorem format_parse_roundtrip_witness :
    format (.object
      { reference := some (lit "did:method:identifier/path/to/this?thing=that#fragment=hash"),
        did := some (lit "did:method:identifier"),
        method := some (lit "method"), identifier := some (lit "identifier"),
        path := some (lit "/path/to/this"), fragment := some (lit "fragment=hash"),
        query := some (lit "thing=that") }) =
      .ok (lit "did:method:identifier/path/to/this?thing=that#fragment=hash") :=
  (format_parse_roundtrip (lit "did:method:identifier/path/to/this?thing=that#fragment=hash")
    (lit "did:method:identifier/path/to/this?thing=that#fragment=hash") _ rfl rfl).2
    ⟨by decide, ⟨lit "method:identifier/path/to/this?thing=that#fragment=hash", rfl⟩,
      by decide, by decide⟩

/-! ## Splitting a string at its first delimiter -/

theorem takeWhile_append_stop (P : Nat → Bool) (a b : Str) (ha : ∀ c ∈ a, P c = true)
    (hb : ∀ c, b.head? = some c → P c = false) : (a ++ b).takeWhile P = a := by
  rw [List.takeWhile_append_of_pos ha]
  cases b with
  | nil => simp
  | cons c cs =>
    have := hb c rfl
    simp [List.takeWhile_cons, this]

theorem dropWhile_append_stop (P : Nat → Bool) (a b : Str) (ha : ∀ c ∈ a, P c = true)
    (hb : ∀ c, b.head? = some c → P c = false) : (a ++ b).dropWhile P = b := by
  rw [List.dropWhile_append_of_pos ha]
  cases b with
  | nil => simp
  | cons c cs =>
    have := hb c rfl
    simp [List.dropWhile_cons, this]

/-- In an accepted input the text after the prefix is the method, `:`, and the
rest, and the prefix is determined by the input. -/
theorem Shape.rest_eq {n pre m id : Str} {p q f : Option Str} {t : Str}
    (h : Shape n pre m id p q f t) (pre' rest : Str) (hpre : IsDidPrefix pre')
    (hn : n = pre' ++ rest) :
    pre' = pre ∧ rest = m ++ 58 :: (id ++ (seg 47 p ++ (seg 63 q ++ (seg 35 f ++ t)))) := by
  obtain ⟨a, b, c, rfl, -⟩ := h.pre_ok
  obtain ⟨a', b', c', rfl, -⟩ := hpre
  have e := h.eq
  rw [hn] at e
  simp only [List.cons_append, List.nil_append, List.cons.injEq] at e
  obtain ⟨rfl, rfl, rfl, -, e⟩ := e
  exact ⟨rfl, e⟩

theorem Shape.method_no_colon {n pre m id : Str} {p q f : Option Str} {t : Str}
    (h : Shape n pre m id p q f t) : ∀ c ∈ m, (c != 58) = true := by
  intro c hc
  have := (isValidMethodCharacter_iff c).1 (h.m_ok c hc)
  simp only [bne_iff_ne, ne_eq]
  omega

theorem Shape.identifier_no_stop {n pre m id : Str} {p q f : Option Str} {t : Str}
    (h : Shape n pre m id p q f t) : ∀ c ∈ id, (c != 47 && c != 63 && c != 35) = true := by
  intro c hc
  have := (isValidIdentifierCharacter_iff c).1 (h.id_ok c hc)
  simp only [Bool.and_eq_true, bne_iff_ne, ne_eq]
  omega

/-! ## A bare trailing slash -/

theorem normalizeString_of_printable (x : Str) (hp : ∀ c ∈ x, 33 ≤ c ∧ c ≤ 126)
    (hs : ¬ lit "did://" <+: x) : normalizeString x = x := by
  rw [normalizeString_of_trimmed x (trimmed_of_printable x hp) (noNewline_of_printable x hp),
    replaceScheme_of_not_prefix x hs]

/-- The loop body fails on a `did:` prefix, a method, `:`, an identifier and a
final `/`: the lookahead after the `/` sees no character. -/
theorem parseBody_bare_slash (n pre m id : Str) (hpre : IsDidPrefix pre)
    (hn : n = pre ++ (m ++ 58 :: (id ++ [47])))
    (hm : ∀ c ∈ m, isValidMethodCharacter (some c) = true)
    (hid : ∀ c ∈ id, isValidIdentifierCharacter (some c) = true) :
    parseBody n emptyCtx n = .error .syntaxError := by
  have e1 : protocolPhase n emptyCtx n =
      .ok ({ emptyCtx with reference := some (lit "did:" ++ n.drop 4) },
        m ++ 58 :: (id ++ [47])) := by
    have hp := protocolLoop_of_prefix pre (m ++ 58 :: (id ++ [47])) hpre
    rw [← hn] at hp
    simp [protocolPhase, emptyCtx, hp]
  have e2 : ∀ ctx : DIDRecord, ctx.method = none →
      methodPhase ctx (m ++ 58 :: (id ++ [47])) =
        .ok ({ ctx with method := some m }, id ++ [47]) := by
    intro ctx hctx
    simp [methodPhase, hctx, methodLoop_append m _ hm, next, code_colon]
  have e3 : ∀ ctx : DIDRecord, ctx.identifier = none →
      identifierPhase ctx (id ++ [47]) = .ok ({ ctx with identifier := some id }, [47]) := by
    intro ctx hctx
    simp [identifierPhase, hctx, identifierLoop_append id [47] hid (by simp)]
  simp only [parseBody, e1, bind, Except.bind]
  rw [e2 _ rfl]
  simp only []
  rw [e3 _ rfl]
  simp only []
  rw [didPhase_of _ m id rfl rfl rfl]
  simp [pathPhase, emptyCtx, peek, next, code_slash, isValidPathCharacter,
    isValidQueryCharacter, isValidFragmentCharacter]

/-- `parse` fails with a `SyntaxError` on `did:`, a method, `:`, an identifier
and a final `/`. -/
theorem parseString_bare_slash (m id : Str)
    (hm : ∀ c ∈ m, isValidMethodCharacter (some c) = true)
    (hid : ∀ c ∈ id, isValidIdentifierCharacter (some c) = true) :
    parseString (lit "did:" ++ (m ++ 58 :: (id ++ [47]))) = .error .syntaxError := by
  have hp : ∀ c ∈ lit "did:" ++ (m ++ 58 :: (id ++ [47])), 33 ≤ c ∧ c ≤ 126 := by
    intro c hc
    simp only [lit_did, List.cons_append, List.nil_append, List.mem_cons, List.mem_append,
      List.mem_singleton, List.not_mem_nil, or_false] at hc
    rcases hc with hc | hc | hc | hc | hc | hc | hc | hc
    · omega
    · omega
    · omega
    · omega
    · exact printable_of_query c (query_of_method c (hm c hc))
    · omega
    · exact printable_of_query c (query_of_identifier c (hid c hc))
    · omega
  have hs : ¬ lit "did://" <+: lit "did:" ++ (m ++ 58 :: (id ++ [47])) := by
    rintro ⟨r, hr⟩
    cases m with
    | nil =>
      simp only [lit_did_slashes, lit_did, List.cons_append, List.nil_append,
        List.cons.injEq] at hr
      omega
    | cons x xs =>
      have := (isValidMethodCharacter_iff x).1 (hm x (List.mem_cons_self _ _))
      simp only [lit_did_slashes, lit_did, List.cons_append, List.nil_append,
        List.cons.injEq] at hr
      omega
  have hne : lit "did:" ++ (m ++ 58 :: (id ++ [47])) ≠ [] := by simp [lit_did]
  unfold parseString
  rw [normalizeString_of_printable _ hp hs, parseLoop_first _ hne,
    parseBody_bare_slash _ (lit "did:") m id ⟨100, 105, 100, rfl, by simp, by simp, by simp⟩
      rfl hm hid]

/-! ## Formatting a parsed record -/

theorem part_optOf (d : Nat) (x : Str) : part [d] (some x) = seg d (optOf x) := by
  by_cases h : x = [] <;> simp [part, seg, optOf, h]

/-- The text `format` assembles from the record of an accepted input. -/
theorem assembled_parsed (n m id : Str) (p q f : Option Str) :
    assembled (lit "did:" ++ m ++ lit ":" ++ id) (mkRecord n m id p q f) =
      lit "did:" ++ (m ++ 58 :: (id ++ (seg 47 p ++ (seg 63 (optOf (q.getD [])) ++
        (seg 35 (optOf (f.getD [])) ++ []))))) := by
  simp only [assembled, mkRecord, lit_question, lit_hash, part_optOf, part_nil_seg, lit_colon]
  simp

/-- The text assembled from the record of an accepted input has the accepted
shape, unless the record has the path `/` and neither query nor fragment. -/
theorem Shape.formatted {n pre m id : Str} {p q f : Option Str} {t : Str}
    (h : Shape n pre m id p q f t)
    (hb : ¬ (p = some [] ∧ q.getD [] = [] ∧ f.getD [] = [])) :
    Shape (lit "did:" ++ (m ++ 58 :: (id ++ (seg 47 p ++ (seg 63 (optOf (q.getD [])) ++
        (seg 35 (optOf (f.getD [])) ++ []))))))
      (lit "did:") m id p (optOf (q.getD [])) (optOf (f.getD [])) [] := by
  refine ⟨rfl, ⟨100, 105, 100, rfl, by simp, by simp, by simp⟩, h.m_ok, h.id_ok, ?_, ?_, ?_,
    Or.inl rfl⟩
  · intro s hs
    refine ⟨(h.p_ok s hs).1, ?_⟩
    intro h0
    simp only [List.append_eq_nil, List.append_nil] at h0
    obtain ⟨h1, h2, h3⟩ := h0
    apply hb
    refine ⟨by rw [hs, h1], ?_, ?_⟩
    · by_contra hq
      simp [optOf, hq, seg] at h2
    · by_contra hf
      simp [optOf, hf, seg] at h3
  · intro s hs
    by_cases h0 : q.getD [] = []
    · simp [optOf, h0] at hs
    · simp only [optOf, h0, if_false, Option.some.injEq] at hs
      cases q with
      | none => exact absurd rfl h0
      | some q' =>
        simp only [Option.getD_some] at hs h0
        subst hs
        exact ⟨(h.q_ok q' rfl).1, by simp [h0]⟩
  · intro s hs
    by_cases h0 : f.getD [] = []
    · simp [optOf, h0] at hs
    · simp only [optOf, h0, if_false, Option.some.injEq] at hs
      cases f with
      | none => exact absurd rfl h0
      | some f' =>
        simp only [Option.getD_some] at hs h0
        subst hs
        exact ⟨(h.f_ok f' rfl).1, by simp [h0]⟩

/-- The record of the assembled text is the original record with the assembled
text as `reference`. -/
theorem mkRecord_formatted (n m id : Str) (p q f : Option Str) :
    mkRecord (lit "did:" ++ (m ++ 58 :: (id ++ (seg 47 p ++ (seg 63 (optOf (q.getD [])) ++
        (seg 35 (optOf (f.getD [])) ++ [])))))) m id p (optOf (q.getD [])) (optOf (f.getD [])) =
      { mkRecord n m id p q f with
        reference := some (lit "did:" ++ (m ++ 58 :: (id ++ (seg 47 p ++
          (seg 63 (optOf (q.getD [])) ++ (seg 35 (optOf (f.getD [])) ++ [])))))) } := by
  simp [mkRecord, getD_optOf, lit_did]

/-- Formatting the record of an accepted input with non-empty method and
identifier: a `SyntaxError` when the record has the path `/` and neither query
nor fragment, the assembled text otherwise. -/
theorem formatRecord_parsed {n pre m id : Str} {p q f : Option Str} {t : Str}
    (h : Shape n pre m id p q f t) (hm : m ≠ []) (hi : id ≠ []) :
    formatRecord (mkRecord n m id p q f) =
      if p = some [] ∧ q.getD [] = [] ∧ f.getD [] = [] then .error .syntaxError
      else .ok (lit "did:" ++ (m ++ 58 :: (id ++ (seg 47 p ++ (seg 63 (optOf (q.getD [])) ++
        (seg 35 (optOf (f.getD [])) ++ [])))))) := by
  have hd : (mkRecord n m id p q f).did = some (lit "did:" ++ m ++ lit ":" ++ id) := by
    simp [mkRecord, hm, hi]
  rw [formatRecord_eq _ _ hd, assembled_parsed]
  by_cases hb : p = some [] ∧ q.getD [] = [] ∧ f.getD [] = []
  · rw [if_pos hb]
    obtain ⟨rfl, hq, hf⟩ := hb
    have e : lit "did:" ++ (m ++ 58 :: (id ++ (seg 47 (some []) ++
        (seg 63 (optOf (q.getD [])) ++ (seg 35 (optOf (f.getD [])) ++ []))))) =
        lit "did:" ++ (m ++ 58 :: (id ++ [47])) := by
      simp [hq, hf, optOf, seg]
    rw [e, parseString_bare_slash m id h.m_ok h.id_ok]
  · rw [if_neg hb, parseString_of_shape (h.formatted hb)]

/-- Normalization keeps a first unit that is neither whitespace nor `d`. -/
theorem normalizeString_head (c : Nat) (z : Str) (hw : isWhiteSpace c = false)
    (hc : c ≠ 100) : ∃ z', normalizeString (c :: z) = c :: z' := by
  have h1 : ∃ z1, trim (c :: z) = c :: z1 := by
    have hd : (c :: z).dropWhile isWhiteSpace = c :: z := by
      simp [List.dropWhile, hw]
    have hpre : trim (c :: z) <+: c :: z := by
      rw [trim, hd]
      exact List.rdropWhile_prefix isWhiteSpace _
    have hne : trim (c :: z) ≠ [] := by
      rw [trim, hd]
      intro h0
      have := (List.rdropWhile_eq_nil_iff).1 h0 c (List.mem_cons_self _ _)
      rw [hw] at this
      cases this
    obtain ⟨r, hr⟩ := hpre
    cases ht : trim (c :: z) with
    | nil => exact absurd ht hne
    | cons d ds =>
      rw [ht] at hr
      simp only [List.cons_append, List.cons.injEq] at hr
      exact ⟨ds, by rw [hr.1]⟩
  obtain ⟨z1, h1⟩ := h1
  have hn := not_ws_of_newline c hw
  have h2 : removeNewlines (c :: z1) = c :: removeNewlines z1 := by
    simp [removeNewlines, List.filter_cons, hn.1, hn.2]
  have h3 : replaceScheme (c :: removeNewlines z1) = c :: removeNewlines z1 := by
    apply replaceScheme_of_not_prefix
    rintro ⟨r, hr⟩
    simp only [lit_did_slashes, List.cons_append, List.cons.injEq] at hr
    exact hc hr.1.symm
  exact ⟨removeNewlines z1, by rw [normalizeString, h1, h2, h3]⟩

/-- No record with a `null` (or non-string) `did` passes the final `parse` of
`format`: the assembled text is `null` or begins with the text `null`. -/
theorem formatRecord_none (r : DIDRecord) (hd : r.did = none) (u : Str) :
    formatRecord r ≠ .ok u := by
  intro h
  have step : ∀ (x : Option Str) (b : Bool) (y : Str),
      (x = none ∨ ∃ z, x = some (110 :: z)) →
      ((if b then appendTo x y else x) = none ∨
        ∃ z, (if b then appendTo x y else x) = some (110 :: z)) := by
    intro x b y hx
    cases b with
    | false => simpa using hx
    | true =>
      right
      rcases hx with rfl | ⟨z, rfl⟩
      · exact ⟨_, rfl⟩
      · exact ⟨z ++ y, rfl⟩
  have h3 := step _ (truthy r.fragment) (lit "#" ++ r.fragment.getD [])
    (step _ (truthy r.query) (lit "?" ++ r.query.getD [])
      (step r.did (truthy r.path) (r.path.getD []) (Or.inl hd)))
  simp only [formatRecord] at h
  rcases h3 with h3 | ⟨z, h3⟩
  · rw [h3] at h
    cases h
  · rw [h3] at h
    simp only at h
    split at h
    · cases h
    · rename_i r' hr
      rcases (parseString_ok_iff _ r').1 hr with ⟨h0, -⟩ | ⟨pre, m, id, p, q, f, t, hs, -⟩
      · obtain ⟨z', hz⟩ := normalizeString_head 110 z rfl (by decide)
        rw [hz] at h0
        cases h0
      · obtain ⟨z', hz⟩ := normalizeString_head 110 z rfl (by decide)
        obtain ⟨a, b, c, rfl, ha, -⟩ := hs.pre_ok
        have e := hs.eq
        rw [hz] at e
        simp only [List.cons_append, List.cons.injEq] at e
        omega

/-! ## Text after a second `#` -/

theorem rdropWhile_append_keep (P : Nat → Bool) (X t : Str)
    (hX : ∀ hne : X ≠ [], ¬ P (X.getLast hne) = true) :
    (X ++ t).rdropWhile P = X ++ t.rdropWhile P := by
  induction t using List.reverseRecOn with
  | nil =>
    simp only [List.append_nil, List.rdropWhile_nil]
    exact List.rdropWhile_eq_self_iff.2 hX
  | append_singleton t a ih =>
    rw [← List.append_assoc]
    by_cases ha : P a = true
    · rw [List.rdropWhile_concat_pos _ _ _ ha, List.rdropWhile_concat_pos _ _ _ ha, ih]
    · rw [List.rdropWhile_concat_neg _ _ _ ha, List.rdropWhile_concat_neg _ _ _ ha,
        List.append_assoc]

/-- Normalizing a printable text followed by `#` and arbitrary text only
touches the arbitrary text. -/
theorem normalizeString_append_hash (x t : Str) (hx : ∀ c ∈ x, 33 ≤ c ∧ c ≤ 126)
    (hne : x ≠ []) (hs : ∀ y, ¬ lit "did://" <+: x ++ y) :
    normalizeString (x ++ 35 :: t) =
      x ++ 35 :: removeNewlines (t.rdropWhile isWhiteSpace) := by
  obtain ⟨c, cs, rfl⟩ := List.exists_cons_of_ne_nil hne
  have hc := not_ws_of_printable c (hx c (List.mem_cons_self _ _))
  have h1 : trim (c :: cs ++ 35 :: t) = (c :: cs ++ [35]) ++ t.rdropWhile isWhiteSpace := by
    have hd : (c :: cs ++ 35 :: t).dropWhile isWhiteSpace = (c :: cs ++ [35]) ++ t := by
      simp [List.dropWhile, hc]
    rw [trim, hd]
    apply rdropWhile_append_keep
    intro _
    simp [isWhiteSpace, inRange]
  have h2 : removeNewlines ((c :: cs ++ [35]) ++ t.rdropWhile isWhiteSpace) =
      (c :: cs) ++ 35 :: removeNewlines (t.rdropWhile isWhiteSpace) := by
    have hk : removeNewlines (c :: cs) = c :: cs :=
      removeNewlines_of_noNewline _ (noNewline_of_printable _ hx)
    simp only [removeNewlines] at hk ⊢
    simp only [List.filter_append, hk]
    simp [List.filter_cons]
  rw [normalizeString, h1, h2, replaceScheme_of_not_prefix _ (hs _)]

/-- A string assembled from valid components with a non-empty fragment,
followed by `#` and arbitrary text, has the accepted shape. -/
theorem shape_of_components_tail (m id p' : Str) (hasPath : Bool) (q f t : Str)
    (hm : ∀ c ∈ m, isValidMethodCharacter (some c) = true)
    (hid : ∀ c ∈ id, isValidIdentifierCharacter (some c) = true)
    (hp : ∀ c ∈ p', c = 47 ∨ isValidPathCharacter (some c) = true)
    (hq : ∀ c ∈ q, isValidQueryCharacter (some c) = true ∧ c ≠ 35)
    (hf : ∀ c ∈ f, isValidQueryCharacter (some c) = true ∧ c ≠ 35) :
    Shape (lit "did:" ++ (m ++ 58 :: (id ++ (seg 47 (if hasPath then some p' else none) ++
        (seg 63 (optOf q) ++ (seg 35 (some f) ++ 35 :: t))))))
      (lit "did:") m id (if hasPath then some p' else none) (optOf q) (some f) (35 :: t) := by
  refine ⟨rfl, ⟨100, 105, 100, rfl, by simp, by simp, by simp⟩, hm, hid, ?_, ?_, ?_,
    Or.inr ⟨by simp, rfl⟩⟩
  · intro s hs
    cases hasPath with
    | false => simp at hs
    | true =>
      simp only [if_true, Option.some.injEq] at hs
      subst hs
      exact ⟨hp, by simp [seg]⟩
  · intro s hs
    by_cases h0 : q = []
    · simp [optOf, h0] at hs
    · simp only [optOf, h0, if_false, Option.some.injEq] at hs
      subst hs
      exact ⟨hq, by simp [h0]⟩
  · intro s hs
    simp only [Option.some.injEq] at hs
    subst hs
    exact ⟨hf, by simp⟩

/-! ## The claims, continued -/

/-- C12: when the normalized form is a `did:` prefix (in any case) followed by
`rest`, `parse` fails with a `SyntaxError` (a) if `rest` has no `:` or the part
of `rest` before its first `:` has a character outside `[a-z0-9]`, and (b) if
that part is valid and the text after the first `:`, up to the first `/`, `?`
or `#` or the end, has a character that is not an identifier character. -/
theorem parse_invalid_method_or_identifier (s n pre rest : Str)
    (hn : normalize (.string s) = .ok n) (hpre : IsDidPrefix pre) (hrest : n = pre ++ rest) :
    ((code ':' ∉ rest ∨ ∃ c ∈ rest.takeWhile (fun c => c != code ':'),
        ¬ ((97 ≤ c ∧ c ≤ 122) ∨ (48 ≤ c ∧ c ≤ 57))) →
      parse (.string s) = .error .syntaxError) ∧
    ((∀ c ∈ rest.takeWhile (fun c => c != code ':'), (97 ≤ c ∧ c ≤ 122) ∨ (48 ≤ c ∧ c ≤ 57)) →
      (∃ c ∈ ((rest.dropWhile (fun c => c != code ':')).drop 1).takeWhile
          (fun c => c != code '/' && c != code '?' && c != code '#'),
        isValidIdentifierCharacter (some c) = false) →
      parse (.string s) = .error .syntaxError) := by
  simp only [normalize, Except.ok.injEq] at hn
  subst hn
  simp only [code_colon, code_slash, code_question, code_hash, parse]
  have key : ∀ r, parseString s = .ok r →
      ∃ m id X, rest = m ++ 58 :: (id ++ X) ∧
        (∀ c ∈ m, isValidMethodCharacter (some c) = true) ∧ (∀ c ∈ m, (c != 58) = true) ∧
        (∀ c ∈ id, isValidIdentifierCharacter (some c) = true) ∧
        (∀ c ∈ id, (c != 47 && c != 63 && c != 35) = true) ∧
        (∀ c, X.head? = some c → c = 47 ∨ c = 63 ∨ c = 35) := by
    intro r hr
    rcases (parseString_ok_iff s r).1 hr with ⟨h0, -⟩ | ⟨pre', m, id, p, q, f, t, hs, -⟩
    · obtain ⟨a, b, c, rfl, -⟩ := hpre
      rw [hrest] at h0
      cases h0
    · exact ⟨m, id, _, (hs.rest_eq pre rest hpre hrest).2, hs.m_ok, hs.method_no_colon,
        hs.id_ok, hs.identifier_no_stop, hs.head_identifier⟩
  have herr : (∀ r, parseString s ≠ .ok r) → parseString s = .error .syntaxError := by
    intro hno
    cases h : parseString s with
    | error e => rw [parseString_error s e h]
    | ok r => exact absurd h (hno r)
  constructor
  · intro ha
    apply herr
    intro r hr
    obtain ⟨m, id, X, e, hm, hm58, -, -, -⟩ := key r hr
    have htake : rest.takeWhile (fun c => c != 58) = m := by
      rw [e]
      exact takeWhile_append_stop _ m _ hm58 (by simp)
    rcases ha with ha | ⟨c, hc, hbad⟩
    · exact ha (by rw [e]; simp)
    · rw [htake] at hc
      have := (isValidMethodCharacter_iff c).1 (hm c hc)
      omega
  · intro _ ⟨c, hc, hbad⟩
    apply herr
    intro r hr
    obtain ⟨m, id, X, e, -, hm58, hid, hstop, hX⟩ := key r hr
    have hdrop : rest.dropWhile (fun c => c != 58) = 58 :: (id ++ X) := by
      rw [e]
      exact dropWhile_append_stop _ m _ hm58 (by simp)
    have htake : (id ++ X).takeWhile (fun c => c != 47 && c != 63 && c != 35) = id := by
      apply takeWhile_append_stop _ id X hstop
      intro d hd
      have := hX d hd
      simp only [Bool.and_eq_false_imp, Bool.and_eq_true, bne_iff_ne, ne_eq, and_imp,
        bne_eq_false_iff_eq]
      omega
    rw [hdrop, List.drop_succ_cons, List.drop_zero, htake] at hc
    rw [hid c hc] at hbad
    cases hbad

/-- Witness for C12: the upper-case method of `did:Method1:id` and the space
in the identifier of `did:m:i d`. -/
theorem parse_invalid_method_or_identifier_witness :
    parse (.string (lit "did:Method1:id")) = .error .syntaxError ∧
      parse (.string (lit "did:m:i d")) = .error .syntaxError :=
  ⟨(parse_invalid_method_or_identifier (lit "did:Method1:id") (lit "did:Method1:id")
      (lit "did:") (lit "Method1:id") rfl ⟨100, 105, 100, rfl, by decide, by decide, by decide⟩
      rfl).1 (Or.inr ⟨77, by decide, by decide⟩),
    (parse_invalid_method_or_identifier (lit "did:m:i d") (lit "did:m:i d")
      (lit "did:") (lit "m:i d") rfl ⟨100, 105, 100, rfl, by decide, by decide, by decide⟩
      rfl).2 (by decide) ⟨32, by decide, by decide⟩⟩

/-- C13 fails on the code: `parse` accepts `did::id` and returns a record whose
`method` is the empty string (and whose `did` is `null`). -/
theorem parse_empty_method :
    normalize (.string (lit "did::id")) = .ok (lit "did::id") ∧
      parse (.string (lit "did::id")) =
        .ok { reference := some (lit "did::id"), did := none, method := some [],
              identifier := some (lit "id"), path := some [], fragment := some [],
              query := some [] } :=
  ⟨rfl, rfl⟩

/-- C14 fails on the code: `parse` accepts `did:m:a::b` and returns the
identifier `a::b`, with two consecutive `:`; it also accepts `did:m::a`,
`did:m:a:` and the empty identifier of `did:m:`. -/
theorem parse_identifier_not_grammar :
    parse (.string (lit "did:m:a::b")) =
        .ok { reference := some (lit "did:m:a::b"), did := some (lit "did:m:a::b"),
              method := some (lit "m"), identifier := some (lit "a::b"), path := some [],
              fragment := some [], query := some [] } ∧
      (∃ r, parse (.string (lit "did:m::a")) = .ok r ∧ r.identifier = some (lit ":a")) ∧
      (∃ r, parse (.string (lit "did:m:a:")) = .ok r ∧ r.identifier = some (lit "a:")) ∧
      (∃ r, parse (.string (lit "did:m:")) = .ok r ∧ r.identifier = some []) :=
  ⟨rfl, ⟨_, rfl, rfl⟩, ⟨_, rfl, rfl⟩, ⟨_, rfl, rfl⟩⟩

/-- C17: each classifier accepts exactly the characters the specification
lists, the fragment classifier coincides with the query classifier, and every
classifier rejects the absent character. -/
theorem classifiers_exact (c : Nat) :
    (isValidMethodCharacter (some c) = true ↔
      (code 'a' ≤ c ∧ c ≤ code 'z') ∨ (code '0' ≤ c ∧ c ≤ code '9')) ∧
    (isValidIdentifierCharacter (some c) = true ↔
      (code 'A' ≤ c ∧ c ≤ code 'Z') ∨ (code 'a' ≤ c ∧ c ≤ code 'z') ∨
        (code '0' ≤ c ∧ c ≤ code '9') ∨ c ∈ lit "-.:") ∧
    (isValidPathCharacter (some c) = true ↔
      (code 'A' ≤ c ∧ c ≤ code 'Z') ∨ (code 'a' ≤ c ∧ c ≤ code 'z') ∨
        (code '0' ≤ c ∧ c ≤ code '9') ∨ c ∈ lit "!$&'()*+,;=:@") ∧
    (isValidQueryCharacter (some c) = true ↔
      (code 'A' ≤ c ∧ c ≤ code 'Z') ∨ (code 'a' ≤ c ∧ c ≤ code 'z') ∨
        (code '0' ≤ c ∧ c ≤ code '9') ∨ c = code '.' ∨ c ∈ lit ":/?#[]@!$&'()*+,;=%-_~") ∧
    (∀ ch, isValidFragmentCharacter ch = isValidQueryCharacter ch) ∧
    isValidMethodCharacter none = false ∧ isValidIdentifierCharacter none = false ∧
    isValidPathCharacter none = false ∧ isValidQueryCharacter none = false ∧
    isValidFragmentCharacter none = false := by
  have ea : code 'a' = 97 := rfl
  have ez : code 'z' = 122 := rfl
  have eA : code 'A' = 65 := rfl
  have eZ : code 'Z' = 90 := rfl
  have e0 : code '0' = 48 := rfl
  have e9 : code '9' = 57 := rfl
  have ed : code '.' = 46 := rfl
  have l1 : lit "-.:" = [45, 46, 58] := rfl
  have l2 : lit "!$&'()*+,;=:@" = [33, 36, 38, 39, 40, 41, 42, 43, 44, 59, 61, 58, 64] := rfl
  have l3 : lit ":/?#[]@!$&'()*+,;=%-_~" =
      [58, 47, 63, 35, 91, 93, 64, 33, 36, 38, 39, 40, 41, 42, 43, 44, 59, 61, 37, 45, 95,
        126] := rfl
  rw [ea, ez, eA, eZ, e0, e9, ed, l1, l2, l3, isValidMethodCharacter_iff,
    isValidIdentifierCharacter_iff, isValidPathCharacter_iff, isValidQueryCharacter_iff]
  simp only [List.mem_cons, List.mem_singleton, List.not_mem_nil, or_false]
  refine ⟨?_, ?_, ?_, ?_, fun _ => rfl, rfl, rfl, rfl, rfl, rfl⟩ <;>
    constructor <;> intro h <;> omega

/-- C18 fails on the code: `isValidPathCharacter` rejects the unreserved
characters `-`, `.`, `_`, `~` and the `%` of a percent-encoding, although the
grammar in its comment lists them, and `parse` rejects a path containing
`-`. -/
theorem path_classifier_rejects_pchar :
    isValidPathCharacter (some (code '-')) = false ∧
      isValidPathCharacter (some (code '.')) = false ∧
      isValidPathCharacter (some (code '_')) = false ∧
      isValidPathCharacter (some (code '~')) = false ∧
      isValidPathCharacter (some (code '%')) = false ∧
      isValidQueryCharacter (some (code '-')) = true ∧
      parse (.string (lit "did:m:id/a-b")) = .error .syntaxError :=
  ⟨rfl, rfl, rfl, rfl, rfl, rfl, rfl⟩

/-- C15, as stated, fails: `parse` rejects `did:m:id/` with a `SyntaxError`
instead of returning a record with path `/`. -/
theorem bare_slash_not_accepted :
    parse (.string (lit "did:m:id/")) = .error .syntaxError :=
  rfl

/-- C15, amended: for a non-empty method over `[a-z0-9]` and a non-empty
identifier over the identifier characters, `parse` fails with a `SyntaxError`
on `"did:" + m + ":" + id + "/"`: the lookahead after the `/` sees the absent
character, which no classifier accepts. -/
theorem parse_bare_slash (m id : Str)
    (hm : m ≠ [] ∧ ∀ c ∈ m, (97 ≤ c ∧ c ≤ 122) ∨ (48 ≤ c ∧ c ≤ 57))
    (hid : id ≠ [] ∧ ∀ c ∈ id, isValidIdentifierCharacter (some c) = true) :
    parse (.string (lit "did:" ++ m ++ lit ":" ++ id ++ lit "/")) = .error .syntaxError := by
  have hm' : ∀ c ∈ m, isValidMethodCharacter (some c) = true := by
    intro c hc
    rw [isValidMethodCharacter_iff]
    have := hm.2 c hc
    omega
  have e : lit "did:" ++ m ++ lit ":" ++ id ++ lit "/" =
      lit "did:" ++ (m ++ 58 :: (id ++ [47])) := by
    have : lit "/" = [47] := rfl
    simp [lit_colon, this]
  rw [e]
  exact parseString_bare_slash m id hm' hid.2

/-- Witness for C15: the method and identifier of the repository's tests. -/
theorem parse_bare_slash_witness :
    parse (.string (lit "did:" ++ lit "method" ++ lit ":" ++ lit "identifier" ++ lit "/")) =
      .error .syntaxError :=
  parse_bare_slash (lit "method") (lit "identifier") (by decide) (by decide)

/-- C16, as stated, fails: for `did:m:id#a#b` the content after the first `#`
up to the end of the normalized input is `a#b`, but the record's fragment is
`a`. -/
theorem fragment_stops_at_second_hash :
    normalize (.string (lit "did:m:id#a#b")) = .ok (lit "did:m:id#a#b") ∧
      ((lit "did:m:id#a#b").dropWhile (fun c => c != code '#')).drop 1 = lit "a#b" ∧
      ∃ r, parse (.string (lit "did:m:id#a#b")) = .ok r ∧ r.fragment = some (lit "a") :=
  ⟨rfl, rfl, _, rfl, rfl⟩

/-- C16, amended: when `parse` returns a record for a string whose normalized
form `n` contains `#`, the record's fragment is the content of `n` after the
first `#` up to the next `#` or the end of `n`. -/
theorem parse_fragment (s n : Str) (r : DIDRecord) (hn : normalize (.string s) = .ok n)
    (h : parse (.string s) = .ok r) (hh : code '#' ∈ n) :
    r.fragment =
      some (((n.dropWhile (fun c => c != code '#')).drop 1).takeWhile
        (fun c => c != code '#')) := by
  simp only [normalize, Except.ok.injEq] at hn
  subst hn
  rw [code_hash] at hh ⊢
  rcases (parseString_ok_iff s r).1 h with ⟨h0, -⟩ | ⟨pre, m, id, p, q, f, t, hs, rfl⟩
  · rw [h0] at hh
    cases hh
  · have hA : ∀ c ∈ pre ++ (m ++ 58 :: (id ++ (seg 47 p ++ seg 63 q))), (c != 35) = true := by
      intro c hc
      simp only [bne_iff_ne, ne_eq]
      rintro rfl
      exact hs.hash_not_mem hc
    have e : normalizeString s =
        (pre ++ (m ++ 58 :: (id ++ (seg 47 p ++ seg 63 q)))) ++ (seg 35 f ++ t) := by
      rw [hs.eq]
      simp
    cases f with
    | none =>
      exfalso
      rcases hs.t_ok with ht | ht
      · rw [e, ht] at hh
        simp only [seg, List.append_nil, List.nil_append] at hh
        exact hs.hash_not_mem hh
      · exact ht.1 rfl
    | some f' =>
      have hf : ∀ c ∈ f', (c != 35) = true := by
        intro c hc
        simp only [bne_iff_ne, ne_eq]
        exact ((hs.f_ok f' rfl).1 c hc).2
      have ht : ∀ c, t.head? = some c → (c != 35) = false := by
        intro c hc
        rcases hs.t_ok with ht | ht
        · rw [ht] at hc
          cases hc
        · rw [ht.2] at hc
          simp only [Option.some.injEq] at hc
          rw [← hc]
          rfl
      have hd : (normalizeString s).dropWhile (fun c => c != 35) = 35 :: (f' ++ t) := by
        rw [e]
        exact dropWhile_append_stop _ _ _ hA (by simp [seg])
      rw [hd, List.drop_succ_cons, List.drop_zero, takeWhile_append_stop _ f' t hf ht]
      rfl

/-- Witness for C16: the input `did:m:id#a#b`, whose fragment is `a`. -/
theorem parse_fragment_witness :
    (some (lit "a") : Option Str) =
      some ((((lit "did:m:id#a#b").dropWhile (fun c => c != code '#')).drop 1).takeWhile
        (fun c => c != code '#')) :=
  parse_fragment (lit "did:m:id#a#b") (lit "did:m:id#a#b")
    { reference := some (lit "did:m:id#a#b"), did := some (lit "did:m:id"),
      method := some (lit "m"), identifier := some (lit "id"), path := some [],
      fragment := some (lit "a"), query := some [] } rfl rfl (by decide)

/-- C11, as stated, fails: `parse` returns a record for `did::id`, but
formatting that record fails with a `TypeError`; and for `did:m:id#a#b`
parsing the formatted record gives a record with another `reference`. -/
theorem closure_fails :
    (∃ r, parse (.string (lit "did::id")) = .ok r ∧ format (.object r) = .error .typeError) ∧
      ∃ r u r', parse (.string (lit "did:m:id#a#b")) = .ok r ∧ format (.object r) = .ok u ∧
        parse (.string u) = .ok r' ∧ r' ≠ r :=
  ⟨⟨_, rfl, rfl⟩, ⟨_, _, _, rfl, rfl, rfl, by decide⟩⟩

/-- C11, amended: when `parse` returns for a string a record `r` with a
non-null `did`, other than one with path `/` and empty query and fragment,
`format(r)` returns a string `u`, and `parse(u)` returns `r` with `u` as its
`reference`: the same `did`, `method`, `identifier`, `path`, `query` and
`fragment`. So `parse(format(r)) = r` exactly when `r.reference` is `u`. -/
theorem format_closure (s : Str) (r : DIDRecord) (h : parse (.string s) = .ok r)
    (hd : r.did ≠ none)
    (hb : ¬ (r.path = some (lit "/") ∧ r.query = some [] ∧ r.fragment = some [])) :
    ∃ u, format (.object r) = .ok u ∧ parse (.string u) = .ok { r with reference := some u } ∧
      (parse (.string u) = .ok r ↔ r.reference = some u) := by
  rcases (parseString_ok_iff s r).1 h with ⟨-, rfl⟩ | ⟨pre, m, id, p, q, f, t, hs, rfl⟩
  · exact absurd rfl hd
  · have hm : m ≠ [] ∧ id ≠ [] := by
      by_contra hc
      simp [mkRecord, hc] at hd
    have hb' : ¬ (p = some [] ∧ q.getD [] = [] ∧ f.getD [] = []) := by
      rintro ⟨rfl, hq, hf⟩
      apply hb
      have : lit "/" = [47] := rfl
      simp [mkRecord, seg, hq, hf, this]
    have ht : truthy (mkRecord (normalizeString s) m id p q f).did = true := by
      simp [mkRecord, hm.1, hm.2, truthy, lit_did]
    have hp := parseString_of_shape (hs.formatted hb')
    rw [mkRecord_formatted (normalizeString s)] at hp
    refine ⟨_, ?_, hp, ?_⟩
    · simp only [format, ht, if_true]
      rw [formatRecord_parsed hs hm.1 hm.2, if_neg hb']
    · simp only [parse] at hp ⊢
      rw [hp]
      constructor
      · intro e
        simp only [Except.ok.injEq] at e
        rw [← e]
      · intro e
        simp only [Except.ok.injEq]
        simp only [mkRecord] at e ⊢
        simp only [DIDRecord.mk.injEq, and_true]
        exact e.symm

/-- Witness for C11: the record `parse` returns for `DID:m:id#a#b`, formatted
as `did:m:id#a`. -/
theorem format_closure_witness :
    ∃ u, format (.object ⟨some (lit "did:m:id#a#b"), some (lit "did:m:id"), some (lit "m"),
        some (lit "id"), some [], some (lit "a"), some []⟩) = .ok u ∧
      parse (.string u) = .ok ⟨some u, some (lit "did:m:id"), some (lit "m"),
        some (lit "id"), some [], some (lit "a"), some []⟩ ∧
      (parse (.string u) = .ok ⟨some (lit "did:m:id#a#b"), some (lit "did:m:id"),
        some (lit "m"), some (lit "id"), some [], some (lit "a"), some []⟩ ↔
        (some (lit "did:m:id#a#b") : Option Str) = some u) :=
  format_closure (lit "DID:m:id#a#b") _ rfl (by decide) (by decide)

/-- C19: when `format` returns a string `u` for a string `s`, it returns `u`
for `u` as well, and `parse(u)` and `parse(s)` return records with the same
`did`, `method`, `identifier`, `path`, `query` and `fragment`. -/
theorem format_idempotent (s u : Str) (h : format (.string s) = .ok u) :
    format (.string u) = .ok u ∧
      ∃ r r', parse (.string s) = .ok r ∧ parse (.string u) = .ok r' ∧ r'.did = r.did ∧
        r'.method = r.method ∧ r'.identifier = r.identifier ∧ r'.path = r.path ∧
        r'.query = r.query ∧ r'.fragment = r.fragment := by
  simp only [format] at h
  cases hp : parseString s with
  | error e => rw [hp] at h; cases h
  | ok r =>
    rw [hp] at h
    simp only at h
    have hd : r.did ≠ none := fun h0 => formatRecord_none r h0 u h
    rcases (parseString_ok_iff s r).1 hp with ⟨-, rfl⟩ | ⟨pre, m, id, p, q, f, t, hs, rfl⟩
    · exact absurd rfl hd
    · have hm : m ≠ [] ∧ id ≠ [] := by
        by_contra hc
        simp [mkRecord, hc] at hd
      rw [formatRecord_parsed hs hm.1 hm.2] at h
      split at h
      · cases h
      · rename_i hb
        simp only [Except.ok.injEq] at h
        subst h
        have hshape := hs.formatted hb
        have hpu := parseString_of_shape hshape
        refine ⟨?_, _, _, hp, hpu, ?_⟩
        · simp only [format, hpu]
          exact formatRecord_mkRecord hshape hm.1 hm.2 (optOf_ne_some_nil _)
            (optOf_ne_some_nil _)
        · simp [mkRecord, getD_optOf]

/-- Witness for C19: `format` maps `DID:m:id#a#b` to `did:m:id#a`. -/
theorem format_idempotent_witness :
    format (.string (lit "DID:m:id#a#b")) = .ok (lit "did:m:id#a") ∧
      format (.string (lit "did:m:id#a")) = .ok (lit "did:m:id#a") ∧
      ∃ r r', parse (.string (lit "DID:m:id#a#b")) = .ok r ∧
        parse (.string (lit "did:m:id#a")) = .ok r' ∧ r'.did = r.did ∧
        r'.method = r.method ∧ r'.identifier = r.identifier ∧ r'.path = r.path ∧
        r'.query = r.query ∧ r'.fragment = r.fragment :=
  ⟨rfl, format_idempotent (lit "DID:m:id#a#b") (lit "did:m:id#a") rfl⟩

/-- C20: for a well-formed DID URI `s` with a non-empty fragment and any text
`t`, `parse` accepts `s + "#" + t` and returns the record of `s` up to its
`reference`: the same `did`, `method`, `identifier`, `path`, `query` and
`fragment`. -/
theorem parse_skips_after_second_hash (m id p q f t : Str)
    (hm : m ≠ [] ∧ ∀ c ∈ m, (97 ≤ c ∧ c ≤ 122) ∨ (48 ≤ c ∧ c ≤ 57))
    (hid : id ≠ [] ∧ ∀ c ∈ id, isValidIdentifierCharacter (some c) = true)
    (hp : p = [] ∨ ∃ p', p = code '/' :: p' ∧
      ∀ c ∈ p', c = code '/' ∨ isValidPathCharacter (some c) = true)
    (hq : ∀ c ∈ q, isValidQueryCharacter (some c) = true ∧ c ≠ code '#')
    (hf : f ≠ [] ∧ ∀ c ∈ f, isValidQueryCharacter (some c) = true ∧ c ≠ code '#') :
    parse (.string (lit "did:" ++ m ++ lit ":" ++ id ++ p ++
        (if q = [] then [] else lit "?" ++ q) ++ lit "#" ++ f)) =
      .ok { reference := some (lit "did:" ++ m ++ lit ":" ++ id ++ p ++
              (if q = [] then [] else lit "?" ++ q) ++ lit "#" ++ f),
            did := some (lit "did:" ++ m ++ lit ":" ++ id), method := some m,
            identifier := some id, path := some p, fragment := some f, query := some q } ∧
    ∃ ref, parse (.string (lit "did:" ++ m ++ lit ":" ++ id ++ p ++
        (if q = [] then [] else lit "?" ++ q) ++ lit "#" ++ f ++ lit "#" ++ t)) =
      .ok { reference := some ref,
            did := some (lit "did:" ++ m ++ lit ":" ++ id), method := some m,
            identifier := some id, path := some p, fragment := some f, query := some q } := by
  have hm' : ∀ c ∈ m, isValidMethodCharacter (some c) = true := by
    intro c hc
    rw [isValidMethodCharacter_iff]
    have := hm.2 c hc
    omega
  rw [code_slash] at hp
  rw [code_hash] at hq hf
  constructor
  · have hs : lit "did:" ++ m ++ lit ":" ++ id ++ p ++ (if q = [] then [] else lit "?" ++ q) ++
        lit "#" ++ f =
        lit "did:" ++ m ++ lit ":" ++ id ++ p ++ (if q = [] then [] else lit "?" ++ q) ++
          (if f = [] then [] else lit "#" ++ f) := by
      simp [hf.1]
    exact (parse_format_components m id p q f hm' hm.1 hid.2 hid.1 hp hq hf.2
      (fun _ => Or.inr hf.1) _ hs).1
  · obtain ⟨hasPath, p', hp', hpc⟩ : ∃ (hasPath : Bool) (p' : Str),
        p = seg 47 (if hasPath then some p' else none) ∧
        (∀ c ∈ p', c = 47 ∨ isValidPathCharacter (some c) = true) := by
      rcases hp with rfl | ⟨p', rfl, h⟩
      · exact ⟨false, [], by simp [seg], by simp⟩
      · exact ⟨true, p', by simp [seg], h⟩
    have hx0 := shape_of_components m id p' hasPath q f hm' hid.2 hpc hq hf.2
      (fun _ _ => Or.inr hf.1)
    have hof : optOf f = some f := by simp [optOf, hf.1]
    rw [hof] at hx0
    have hX : ∀ c ∈ lit "did:" ++ (m ++ 58 :: (id ++
        (seg 47 (if hasPath then some p' else none) ++ (seg 63 (optOf q) ++
          (seg 35 (some f) ++ []))))), 33 ≤ c ∧ c ≤ 126 := by
      intro c hc
      rcases hx0.printable c hc with h1 | h1
      · exact h1
      · cases h1
    have hsch : ∀ y, ¬ lit "did://" <+: (lit "did:" ++ (m ++ 58 :: (id ++
        (seg 47 (if hasPath then some p' else none) ++ (seg 63 (optOf q) ++
          (seg 35 (some f) ++ [])))))) ++ y := by
      rintro y ⟨r, hr⟩
      obtain ⟨x, xs, rfl⟩ := List.exists_cons_of_ne_nil hm.1
      have := (isValidMethodCharacter_iff x).1 (hm' x (List.mem_cons_self _ _))
      simp only [lit_did_slashes, lit_did, List.cons_append, List.nil_append,
        List.cons.injEq] at hr
      omega
    have hnorm := normalizeString_append_hash _ t hX (by simp [lit_did]) hsch
    have hshape := shape_of_components_tail m id p' hasPath q f
      (removeNewlines (t.rdropWhile isWhiteSpace)) hm' hid.2 hpc hq hf.2
    have e1 : lit "did:" ++ m ++ lit ":" ++ id ++ p ++ (if q = [] then [] else lit "?" ++ q) ++
        lit "#" ++ f ++ lit "#" ++ t =
        (lit "did:" ++ (m ++ 58 :: (id ++ (seg 47 (if hasPath then some p' else none) ++
          (seg 63 (optOf q) ++ (seg 35 (some f) ++ [])))))) ++ 35 :: t := by
      rw [hp', seg_optOf]
      simp [lit_colon, lit_question, lit_hash, seg]
    have e2 : (lit "did:" ++ (m ++ 58 :: (id ++ (seg 47 (if hasPath then some p' else none) ++
          (seg 63 (optOf q) ++ (seg 35 (some f) ++ [])))))) ++
          35 :: removeNewlines (t.rdropWhile isWhiteSpace) =
        lit "did:" ++ (m ++ 58 :: (id ++ (seg 47 (if hasPath then some p' else none) ++
          (seg 63 (optOf q) ++ (seg 35 (some f) ++
            35 :: removeNewlines (t.rdropWhile isWhiteSpace)))))) := by
      simp
    rw [e2] at hnorm
    rw [← hnorm, ← e1] at hshape
    have hparse := (parseString_ok_iff _ _).2 (Or.inr ⟨_, _, _, _, _, _, _, hshape, rfl⟩)
    simp only [mkRecord, getD_optOf, Option.getD_some, ← hp', hm.1, hid.1, ne_eq,
      not_false_eq_true, and_self, if_true] at hparse
    exact ⟨_, hparse⟩

/-- Witness for C20: the composite URI of the repository's tests followed by
`#` and a text with a space and a control character. -/
theorem parse_skips_after_second_hash_witness :
    parse (.string (lit "did:" ++ lit "method" ++ lit ":" ++ lit "identifier" ++
        lit "/path/to/this" ++ (if lit "thing=that" = [] then [] else lit "?" ++ lit "thing=that") ++
        lit "#" ++ lit "fragment=hash")) =
      .ok { reference := some (lit "did:" ++ lit "method" ++ lit ":" ++ lit "identifier" ++
              lit "/path/to/this" ++
              (if lit "thing=that" = [] then [] else lit "?" ++ lit "thing=that") ++
              lit "#" ++ lit "fragment=hash"),
            did := some (lit "did:" ++ lit "method" ++ lit ":" ++ lit "identifier"),
            method := some (lit "method"), identifier := some (lit "identifier"),
            path := some (lit "/path/to/this"), fragment := some (lit "fragment=hash"),
            query := some (lit "thing=that") } ∧
    ∃ ref, parse (.string (lit "did:" ++ lit "method" ++ lit ":" ++ lit "identifier" ++
        lit "/path/to/this" ++ (if lit "thing=that" = [] then [] else lit "?" ++ lit "thing=that") ++
        lit "#" ++ lit "fragment=hash" ++ lit "#" ++ lit "a b\x01")) =
      .ok { reference := some ref,
            did := some (lit "did:" ++ lit "method" ++ lit ":" ++ lit "identifier"),
            method := some (lit "method"), identifier := some (lit "identifier"),
            path := some (lit "/path/to/this"), fragment := some (lit "fragment=hash"),
            query := some (lit "thing=that") } :=
  parse_skips_after_second_hash (lit "method") (lit "identifier") (lit "/path/to/this")
    (lit "thing=that") (lit "fragment=hash") (lit "a b\x01") (by decide) (by decide)
    (Or.inr ⟨lit "path/to/this", rfl, by decide⟩) (by decide) (by decide)

end DidUri
